import Mathlib

/-!
# Verification of the ModMapper relevance-ranking / context-assembly pipeline

Shallow embedding of `src/attached_assets/extractorv2_1767587896596.py`
(the enhanced Modbus register extractor).  Python strings are embedded as
`List Char`; Python `int` as `ℤ` (or `ℕ` where the value is a length or
count and hence non-negative).

The relevance scores in the source are Python floats, and every score
constant in the source (`5.0`, `1.5`, `0.8`, `8.0`, ...) is a decimal
number with at most one digit after the point.  We embed scores exactly in
units of one tenth (`score_tenths = 10 * score`), as integers: e.g. the
indicator bonus `5.0` becomes `50`, and the tier threshold
`relevance_score > 8.0` becomes `relevance_score > 80`.  This is an exact
(order-isomorphic) representation of the intended decimal arithmetic and
avoids floating point, which a shallow embedding cannot reproduce
bit-for-bit anyway.  Similarly, the fractional budget ceilings
(`max_chars * 0.85` etc.) are embedded as exact rational comparisons
written with integer arithmetic (`100 * x ≤ 85 * max_chars`).

Python raising an exception is embedded as `Except.error`.
-/

/-! ## Python string primitives (on `List Char`) -/

/-- The characters stripped by Python `str.strip()` and matched by the
regex class `\s` (ASCII range; the documents handled are ASCII). -/
def isPySpace (c : Char) : Bool :=
  c = ' ' || c = '\t' || c = '\n' || c = '\r' || c = '\x0b' || c = '\x0c'

/-- Regex word character `\w` (ASCII range). -/
def isWordChar (c : Char) : Bool :=
  c.isAlphanum || c = '_'

/-- Python `str.lower()`. -/
def pyLower (s : List Char) : List Char :=
  s.map Char.toLower

/-- Python `str.lstrip()`. -/
def pyLStrip : List Char → List Char
  | [] => []
  | c :: s => if isPySpace c then pyLStrip s else c :: s

/-- Python `str.rstrip()`. -/
def pyRStrip (s : List Char) : List Char :=
  (pyLStrip s.reverse).reverse

/-- Python `str.strip()`. -/
def pyStrip (s : List Char) : List Char :=
  pyRStrip (pyLStrip s)

/-- Python `str.split('\n')`. -/
def splitNl : List Char → List (List Char)
  | [] => [[]]
  | c :: s =>
    if c = '\n' then [] :: splitNl s
    else
      match splitNl s with
      | [] => [[c]]
      | l :: ls => (c :: l) :: ls

/-- Test whether `k` is a prefix of `s` (`startsWith k s`). -/
def startsWith : List Char → List Char → Bool
  | [], _ => true
  | _ :: _, [] => false
  | a :: k, b :: s => a = b && startsWith k s

/-- The pattern/word `k` occurs in `s` starting at index `i`. -/
def occursAt (s k : List Char) (i : ℕ) : Bool :=
  startsWith k (s.drop i)

/-- Python `k in s` (substring containment). -/
def containsSub (s k : List Char) : Bool :=
  (List.range (s.length + 1)).any (fun i => occursAt s k i)

/-- Greedy non-overlapping occurrence counting, the semantics of Python
`str.count`.  After a match the scan resumes right after the matched text;
`n` counts characters still to be skipped from the previous match.
(Python counts `len+1` occurrences of the empty string; the keywords
counted by the source are all non-empty, where this definition agrees.) -/
def countAux (k : List Char) : List Char → ℕ → ℕ
  | [], _ => 0
  | _ :: s, n + 1 => countAux k s n
  | c :: s, 0 =>
    if startsWith k (c :: s) then 1 + countAux k s (k.length - 1)
    else countAux k s 0

/-- Python `s.count(k)` for non-empty `k`. -/
def pyCount (s k : List Char) : ℕ :=
  countAux k s 0

/-! ## Stage 6 data model: raw register records

`validate_and_deduplicate` consumes the loosely-typed record list returned
by the external extractor.  For the fields it touches: `address` may be
absent (`none`), a Python int, or some non-integer value; `name` and
`description` are read with `reg.get(..., "")`, so an absent field is
indistinguishable from `""` in every code path, and we embed them as plain
strings. -/

inductive PyVal where
  | int (n : ℤ)
  | nonInt
deriving DecidableEq, Repr

structure RawReg where
  address : Option PyVal
  name : List Char
  description : List Char
deriving DecidableEq, Repr

/-- Informativeness `len(reg.get("description", "")) + len(reg.get("name", ""))`, the
informativeness heuristic used to pick among duplicate addresses. -/
def infoScore (r : RawReg) : ℕ :=
  r.description.length + r.name.length

/-- The address key under which the validation loop files `r`:
`addr = reg.get("address", 0)`, skipped (`none`) when
`not isinstance(addr, int) or addr < 0`.  Note that a record with *no*
`address` field gets the default key `0` and is *not* skipped. -/
def vddKeyOf (r : RawReg) : Option ℤ :=
  match r.address.getD (.int 0) with
  | .nonInt => none
  | .int a => if a < 0 then none else some a

/-- The value of the record's `address` field when it is an int
(`x["address"]`, used as the final sort key; `none` means a `KeyError`
or non-int value). -/
def addrKeyOf (r : RawReg) : Option ℤ :=
  match r.address with
  | some (.int a) => some a
  | _ => none

/-- One iteration of the `for reg in registers` loop over the
insertion-ordered dict `seen_addresses` (embedded as an association list
in key-insertion order; updating a key keeps its position, exactly like a
Python dict). -/
def vddStep (d : List (ℤ × RawReg)) (r : RawReg) : List (ℤ × RawReg) :=
  match vddKeyOf r with
  | none => d
  | some a =>
    match d.find? (fun p => p.1 = a) with
    | some w =>
      d.map (fun p => if p.1 = a then (a, if infoScore w.2 < infoScore r then r else w.2) else p)
    | none => d ++ [(a, r)]

/-- The `seen_addresses` dict after the whole loop. -/
def vddDict (regs : List RawReg) : List (ℤ × RawReg) :=
  regs.foldl vddStep []

/-- Stable insertion (ascending by `key`) used to model Python's stable
`sorted`. -/
def insertAscBy (key : RawReg → ℤ) (x : RawReg) : List RawReg → List RawReg
  | [] => [x]
  | y :: ys => if key y ≤ key x then y :: insertAscBy key x ys else x :: y :: ys

/-- Stable ascending sort by `key` (insertion sort; agrees with Python's
stable `sorted(..., key=...)`). -/
def sortAscBy (key : RawReg → ℤ) (l : List RawReg) : List RawReg :=
  l.foldl (fun acc x => insertAscBy key x acc) []

/-- The sort key `lambda x: x["address"]` (only ever evaluated on records
whose `address` field holds an int; `getD 0` is a total-function filler
for the unreachable case). -/
def addrSortKey (r : RawReg) : ℤ :=
  (addrKeyOf r).getD 0

/-- Embedding of `validate_and_deduplicate` (extractorv2 lines 702-732).  The final
`sorted(seen_addresses.values(), key=lambda x: x["address"])` evaluates
`x["address"]` on every kept record; a kept record without an `address`
field raises `KeyError` (kept records never hold a non-int address, so
`addrKeyOf` being `none` means exactly that the field is missing). -/
def validate_and_deduplicate (regs : List RawReg) : Except (List Char) (List RawReg) :=
  let vals := (vddDict regs).map (fun p => p.2)
  if vals.all (fun r => (addrKeyOf r).isSome) then
    .ok (sortAscBy addrSortKey vals)
  else
    .error ("KeyError: address".toList)

/-! ### Specification model of the reconciler (§4.5 of the spec)

Modelled from the spec: "Discards any entry whose address is missing,
non-integer, or negative.  Groups by address (exact integer equality).
Within a group, keeps the entry whose `length(description) +
length(name)` is strictly greater; on exact tie, retains whichever was
encountered first.  Final output sorted ascending by address." -/

/-- Spec §4.5: an entry is valid iff its address is present, an integer
and non-negative. -/
def specValid (r : RawReg) : Bool :=
  match r.address with
  | some (.int a) => decide (0 ≤ a)
  | _ => false

/-- Distinct elements in order of first occurrence. -/
def firstKeys (l : List ℤ) : List ℤ :=
  l.foldl (fun acc a => if a ∈ acc then acc else acc ++ [a]) []

/-- Keep the better of two duplicate entries: replace only when the new
entry is strictly more informative (first-wins on ties). -/
def pickBetter (w e : RawReg) : RawReg :=
  if infoScore w < infoScore e then e else w

/-- The records the validation loop files under key `a`. -/
def vddGroup (a : ℤ) (l : List RawReg) : List RawReg :=
  l.filter (fun r => vddKeyOf r = some a)

/-- The surviving entry of the key-`a` group of `l` (first entry wins
ties, later entries replace only when strictly more informative). -/
def groupWinner (a : ℤ) (l : List RawReg) : RawReg :=
  match vddGroup a l with
  | [] => ⟨none, [], []⟩
  | h :: t => t.foldl pickBetter h

/-- Spec §4.5 grouping: the valid entries whose *address* equals `a`. -/
def specGroupWinner (a : ℤ) (l : List RawReg) : RawReg :=
  match l.filter (fun r => addrKeyOf r = some a) with
  | [] => ⟨none, [], []⟩
  | h :: t => t.foldl pickBetter h

/-- Ascending insertion into a sorted list of integers. -/
def insertIntAsc (x : ℤ) : List ℤ → List ℤ
  | [] => [x]
  | y :: ys => if y ≤ x then y :: insertIntAsc x ys else x :: y :: ys

/-- Ascending insertion sort on integers. -/
def sortInt (l : List ℤ) : List ℤ :=
  l.foldl (fun acc x => insertIntAsc x acc) []

/-- Modelled from the spec (§4.5 `reconcile`): discard invalid entries,
group the rest by address, keep each group's most informative entry
(first-wins on ties), and list the winners in ascending address order. -/
def reconcile_spec (regs : List RawReg) : List RawReg :=
  let vregs := regs.filter specValid
  (sortInt (firstKeys (vregs.filterMap addrKeyOf))).map (fun a => specGroupWinner a vregs)

/-! ## Lemmas about `validate_and_deduplicate` -/

/-- The keys processed by the validation loop, in input order. -/
def vddKeys (l : List RawReg) : List ℤ :=
  l.filterMap vddKeyOf

lemma mem_foldl_ins (l : List ℤ) (acc : List ℤ) (a : ℤ) :
    a ∈ l.foldl (fun acc b => if b ∈ acc then acc else acc ++ [b]) acc ↔ a ∈ acc ∨ a ∈ l := by
  induction l generalizing acc with
  | nil => simp
  | cons b l ih =>
    rw [List.foldl_cons, ih]
    by_cases hb : b ∈ acc
    · simp only [if_pos hb, List.mem_cons]
      constructor
      · rintro (h | h)
        · exact Or.inl h
        · exact Or.inr (Or.inr h)
      · rintro (h | rfl | h)
        · exact Or.inl h
        · exact Or.inl hb
        · exact Or.inr h
    · simp only [if_neg hb, List.mem_append, List.mem_singleton, List.mem_cons]
      tauto

lemma mem_firstKeys {a : ℤ} {l : List ℤ} : a ∈ firstKeys l ↔ a ∈ l := by
  unfold firstKeys
  rw [mem_foldl_ins]
  simp

lemma nodup_foldl_ins (l : List ℤ) (acc : List ℤ) (h : acc.Nodup) :
    (l.foldl (fun acc b => if b ∈ acc then acc else acc ++ [b]) acc).Nodup := by
  induction l generalizing acc with
  | nil => exact h
  | cons b l ih =>
    rw [List.foldl_cons]
    by_cases hb : b ∈ acc
    · rw [if_pos hb]; exact ih acc h
    · rw [if_neg hb]
      exact ih _ (by simp [List.nodup_append, h, hb])

lemma firstKeys_nodup (l : List ℤ) : (firstKeys l).Nodup :=
  nodup_foldl_ins l [] (by simp)

lemma firstKeys_append_singleton (l : List ℤ) (a : ℤ) :
    firstKeys (l ++ [a]) = if a ∈ l then firstKeys l else firstKeys l ++ [a] := by
  have h : firstKeys (l ++ [a]) =
      if a ∈ firstKeys l then firstKeys l else firstKeys l ++ [a] := by
    unfold firstKeys
    rw [List.foldl_append]
    rfl
  rw [h]
  simp only [mem_firstKeys]

lemma foldl_ins_of_subset (y acc : List ℤ) (h : ∀ b ∈ y, b ∈ acc) :
    y.foldl (fun acc b => if b ∈ acc then acc else acc ++ [b]) acc = acc := by
  induction y with
  | nil => rfl
  | cons b y ih =>
    rw [List.foldl_cons, if_pos (h b (by simp))]
    exact ih (fun b hb => h b (by simp [hb]))

lemma firstKeys_append_of_subset (x y : List ℤ) (h : ∀ b ∈ y, b ∈ x) :
    firstKeys (x ++ y) = firstKeys x := by
  unfold firstKeys
  rw [List.foldl_append]
  exact foldl_ins_of_subset y _ (fun b hb => mem_firstKeys.mpr (h b hb))

lemma find?_map_of_mem (K : List ℤ) (f : ℤ → ℤ × RawReg) (hf : ∀ x, (f x).1 = x)
    (a : ℤ) (h : a ∈ K) :
    (K.map f).find? (fun p => p.1 = a) = some (f a) := by
  induction K with
  | nil => simp at h
  | cons b K ih =>
    by_cases hb : b = a
    · subst hb
      simp [List.find?, hf b]
    · rcases List.mem_cons.mp h with h' | h'
      · exact absurd h'.symm hb
      · simpa [List.find?, hf b, hb] using ih h'

lemma find?_map_of_not_mem (K : List ℤ) (f : ℤ → ℤ × RawReg) (hf : ∀ x, (f x).1 = x)
    (a : ℤ) (h : a ∉ K) :
    (K.map f).find? (fun p => p.1 = a) = none := by
  induction K with
  | nil => rfl
  | cons b K ih =>
    have hb : b ≠ a := fun hba => h (by simp [hba])
    simpa [List.find?, hf b, hb] using ih (fun hmem => h (by simp [hmem]))

lemma vddGroup_append (a : ℤ) (l : List RawReg) (r : RawReg) :
    vddGroup a (l ++ [r]) =
      vddGroup a l ++ (if vddKeyOf r = some a then [r] else []) := by
  simp only [vddGroup, List.filter_append]
  congr 1
  by_cases h : vddKeyOf r = some a <;> simp [List.filter, h]

lemma vddGroup_eq_nil_iff (a : ℤ) (l : List RawReg) :
    vddGroup a l = [] ↔ a ∉ vddKeys l := by
  simp only [vddGroup, vddKeys, List.filter_eq_nil_iff, List.mem_filterMap]
  push_neg
  constructor
  · intro h r hr
    intro hk
    exact h r hr (by simp [hk])
  · intro h r hr hk
    exact h r hr (by simpa using hk)

lemma le_pickBetter_left (h e : RawReg) : infoScore h ≤ infoScore (pickBetter h e) := by
  unfold pickBetter
  split
  · exact le_of_lt (by assumption)
  · exact le_refl _

lemma le_pickBetter_right (h e : RawReg) : infoScore e ≤ infoScore (pickBetter h e) := by
  unfold pickBetter
  split
  · exact le_refl _
  · exact le_of_not_lt (by assumption)

lemma infoScore_le_foldl (t : List RawReg) (h : RawReg) :
    ∀ e ∈ h :: t, infoScore e ≤ infoScore (t.foldl pickBetter h) := by
  induction t generalizing h with
  | nil =>
    intro e he
    rcases List.mem_cons.mp he with rfl | he
    · exact le_refl _
    · simp at he
  | cons e' t ih =>
    intro e he
    have hbase : infoScore (pickBetter h e') ≤
        infoScore (t.foldl pickBetter (pickBetter h e')) :=
      ih (pickBetter h e') _ (by simp)
    rcases List.mem_cons.mp he with rfl | he
    · exact le_trans (le_pickBetter_left e e') hbase
    · rcases List.mem_cons.mp he with rfl | he
      · exact le_trans (le_pickBetter_right h e) hbase
      · exact ih (pickBetter h e') e (by simp [he])

lemma foldl_pickBetter_of_le (t : List RawReg) (w : RawReg)
    (h : ∀ e ∈ t, infoScore e ≤ infoScore w) : t.foldl pickBetter w = w := by
  induction t with
  | nil => rfl
  | cons e t ih =>
    have he : pickBetter w e = w := by
      unfold pickBetter
      rw [if_neg (not_lt_of_le (h e (by simp)))]
    rw [List.foldl_cons, he]
    exact ih (fun e he' => h e (by simp [he']))

lemma foldl_pickBetter_mem (t : List RawReg) (h : RawReg) :
    t.foldl pickBetter h ∈ h :: t := by
  induction t generalizing h with
  | nil => simp
  | cons e t ih =>
    rw [List.foldl_cons]
    have hp : pickBetter h e = h ∨ pickBetter h e = e := by
      unfold pickBetter
      split
      · exact Or.inr rfl
      · exact Or.inl rfl
    rcases List.mem_cons.mp (ih (pickBetter h e)) with hm | hm
    · rw [hm]
      rcases hp with hp | hp <;> rw [hp]
      · exact List.mem_cons_self _ _
      · exact List.mem_cons.mpr (Or.inr (List.mem_cons_self _ _))
    · exact List.mem_cons.mpr (Or.inr (List.mem_cons.mpr (Or.inr hm)))

lemma groupWinner_append_other {a : ℤ} {l : List RawReg} {r : RawReg}
    (h : vddKeyOf r ≠ some a) : groupWinner a (l ++ [r]) = groupWinner a l := by
  unfold groupWinner
  rw [vddGroup_append, if_neg h, List.append_nil]

lemma groupWinner_append_new {a : ℤ} {l : List RawReg} {r : RawReg}
    (hk : vddKeyOf r = some a) (h0 : vddGroup a l = []) :
    groupWinner a (l ++ [r]) = r := by
  unfold groupWinner
  rw [vddGroup_append, if_pos hk, h0]
  rfl

lemma groupWinner_append_mem {a : ℤ} {l : List RawReg} {r : RawReg}
    (hk : vddKeyOf r = some a) (h0 : vddGroup a l ≠ []) :
    groupWinner a (l ++ [r]) = pickBetter (groupWinner a l) r := by
  unfold groupWinner
  rw [vddGroup_append, if_pos hk]
  rcases List.exists_cons_of_ne_nil h0 with ⟨h, t, ht⟩
  rw [ht]
  show ((t ++ [r]).foldl pickBetter h) = pickBetter (t.foldl pickBetter h) r
  rw [List.foldl_append]
  rfl

lemma groupWinner_mem {a : ℤ} {l : List RawReg} (h0 : vddGroup a l ≠ []) :
    groupWinner a l ∈ vddGroup a l := by
  rcases List.exists_cons_of_ne_nil h0 with ⟨h, t, ht⟩
  unfold groupWinner
  rw [ht]
  exact foldl_pickBetter_mem t h

lemma mem_vddGroup {a : ℤ} {l : List RawReg} {r : RawReg} (h : r ∈ vddGroup a l) :
    r ∈ l ∧ vddKeyOf r = some a := by
  have h' := List.mem_filter.mp h
  exact ⟨h'.1, by simpa using h'.2⟩

lemma vddKeyOf_groupWinner {a : ℤ} {l : List RawReg} (h0 : vddGroup a l ≠ []) :
    vddKeyOf (groupWinner a l) = some a :=
  (mem_vddGroup (groupWinner_mem h0)).2

/-- Characterization of the `seen_addresses` dict after the loop: one
entry per distinct key in first-seen order, holding the group winner. -/
theorem vddDict_eq (regs : List RawReg) :
    vddDict regs = (firstKeys (vddKeys regs)).map (fun a => (a, groupWinner a regs)) := by
  induction regs using List.reverseRecOn with
  | nil => rfl
  | append_singleton l r ih =>
    have hstep : vddDict (l ++ [r]) = vddStep (vddDict l) r := by
      simp [vddDict, List.foldl_append]
    cases hk : vddKeyOf r with
    | none =>
      have hkeys : vddKeys (l ++ [r]) = vddKeys l := by
        simp [vddKeys, List.filterMap_append, List.filterMap, hk]
      rw [hstep]
      simp only [vddStep, hk]
      rw [ih, hkeys]
      exact List.map_congr_left fun a _ => by
        rw [groupWinner_append_other (by rw [hk]; exact fun h => Option.noConfusion h)]
    | some a =>
      have hkeys : vddKeys (l ++ [r]) = vddKeys l ++ [a] := by
        simp [vddKeys, List.filterMap_append, List.filterMap, hk]
      by_cases ha : a ∈ vddKeys l
      · have hgrp : vddGroup a l ≠ [] := by
          rw [Ne, vddGroup_eq_nil_iff]
          simpa using ha
        have hfind : (vddDict l).find? (fun p => p.1 = a) = some (a, groupWinner a l) := by
          rw [ih]
          exact find?_map_of_mem _ _ (fun x => rfl) a (mem_firstKeys.mpr ha)
        rw [hstep]
        simp only [vddStep, hk, hfind]
        rw [ih, hkeys, firstKeys_append_singleton, if_pos ha, List.map_map]
        refine List.map_congr_left fun a' ha' => ?_
        by_cases haa : a' = a
        · subst haa
          simp only [Function.comp_apply, if_pos rfl]
          rw [groupWinner_append_mem hk hgrp]
          rfl
        · simp only [Function.comp_apply, if_neg haa]
          rw [groupWinner_append_other (by rw [hk, Ne, Option.some_inj]; exact fun h => haa h.symm)]
      · have hg0 : vddGroup a l = [] := (vddGroup_eq_nil_iff a l).mpr ha
        have hfind : (vddDict l).find? (fun p => p.1 = a) = none := by
          rw [ih]
          exact find?_map_of_not_mem _ _ (fun x => rfl) a (fun hm => ha (mem_firstKeys.mp hm))
        rw [hstep]
        simp only [vddStep, hk, hfind]
        rw [ih, hkeys, firstKeys_append_singleton, if_neg ha, List.map_append]
        congr 1
        · refine List.map_congr_left fun a' ha' => ?_
          have haa : a' ≠ a := fun h => ha (h ▸ mem_firstKeys.mp ha')
          rw [groupWinner_append_other (by rw [hk, Ne, Option.some_inj]; exact fun h => haa h.symm)]
        · simp [groupWinner_append_new hk hg0]

lemma insertAscBy_perm (key : RawReg → ℤ) (x : RawReg) (l : List RawReg) :
    List.Perm (insertAscBy key x l) (x :: l) := by
  induction l with
  | nil => exact List.Perm.refl _
  | cons y ys ih =>
    unfold insertAscBy
    split
    · exact (ih.cons y).trans (List.Perm.swap x y ys)
    · exact List.Perm.refl _

lemma mem_insertAscBy {key : RawReg → ℤ} {x z : RawReg} {l : List RawReg} :
    z ∈ insertAscBy key x l ↔ z = x ∨ z ∈ l := by
  rw [(insertAscBy_perm key x l).mem_iff, List.mem_cons]

lemma foldl_insertAscBy_perm (key : RawReg → ℤ) :
    ∀ (l acc : List RawReg),
      List.Perm (l.foldl (fun acc x => insertAscBy key x acc) acc) (acc ++ l) := by
  intro l
  induction l with
  | nil => intro acc; simp
  | cons x l ih =>
    intro acc
    have h1 : (x :: l).foldl (fun acc x => insertAscBy key x acc) acc
        = l.foldl (fun acc x => insertAscBy key x acc) (insertAscBy key x acc) := rfl
    rw [h1]
    have h2 := ih (insertAscBy key x acc)
    have h3 : List.Perm (insertAscBy key x acc ++ l) ((x :: acc) ++ l) :=
      (insertAscBy_perm key x acc).append_right l
    have h4 : List.Perm ((x :: acc) ++ l) (acc ++ x :: l) := List.perm_middle.symm
    exact (h2.trans h3).trans h4

lemma sortAscBy_perm (key : RawReg → ℤ) (l : List RawReg) :
    List.Perm (sortAscBy key l) l := by
  simpa using foldl_insertAscBy_perm key l []

lemma insertAscBy_pairwise (key : RawReg → ℤ) (x : RawReg) (l : List RawReg)
    (hl : l.Pairwise (fun a b => key a ≤ key b)) :
    (insertAscBy key x l).Pairwise (fun a b => key a ≤ key b) := by
  induction l with
  | nil => simp [insertAscBy]
  | cons y ys ih =>
    rcases List.pairwise_cons.mp hl with ⟨hy, hys⟩
    unfold insertAscBy
    split
    · refine List.pairwise_cons.mpr ⟨?_, ih hys⟩
      intro z hz
      rcases mem_insertAscBy.mp hz with rfl | hz
      · assumption
      · exact hy z hz
    · refine List.pairwise_cons.mpr ⟨?_, hl⟩
      intro z hz
      have hxy : key x ≤ key y := le_of_not_le (by assumption)
      rcases List.mem_cons.mp hz with rfl | hz
      · exact hxy
      · exact le_trans hxy (hy z hz)

lemma sortAscBy_pairwise (key : RawReg → ℤ) (l : List RawReg) :
    (sortAscBy key l).Pairwise (fun a b => key a ≤ key b) := by
  have main : ∀ (l acc : List RawReg), acc.Pairwise (fun a b => key a ≤ key b) →
      (l.foldl (fun acc x => insertAscBy key x acc) acc).Pairwise (fun a b => key a ≤ key b) := by
    intro l
    induction l with
    | nil => intro acc h; exact h
    | cons x l ih => intro acc h; exact ih _ (insertAscBy_pairwise key x acc h)
  exact main l [] (by simp)

lemma mem_insertIntAsc {x z : ℤ} {l : List ℤ} :
    z ∈ insertIntAsc x l ↔ z = x ∨ z ∈ l := by
  induction l with
  | nil => simp [insertIntAsc]
  | cons y ys ih =>
    unfold insertIntAsc
    split
    · simp only [List.mem_cons, ih]
      tauto
    · simp only [List.mem_cons]

lemma insertAscBy_map_comm (key : RawReg → ℤ) (w : ℤ → RawReg) (x : ℤ) (ks : List ℤ)
    (hx : key (w x) = x) (hks : ∀ a ∈ ks, key (w a) = a) :
    insertAscBy key (w x) (ks.map w) = (insertIntAsc x ks).map w := by
  induction ks with
  | nil => rfl
  | cons b ks ih =>
    have hb : key (w b) = b := hks b (by simp)
    show (if key (w b) ≤ key (w x) then w b :: insertAscBy key (w x) (ks.map w)
          else w x :: w b :: ks.map w) = _
    rw [hb, hx]
    unfold insertIntAsc
    split
    · rw [List.map_cons, ih (fun a ha => hks a (by simp [ha]))]
    · rfl

lemma sortAscBy_map_comm (key : RawReg → ℤ) (w : ℤ → RawReg) (ks : List ℤ)
    (hks : ∀ a ∈ ks, key (w a) = a) :
    sortAscBy key (ks.map w) = (sortInt ks).map w := by
  have main : ∀ (l acc : List ℤ), (∀ a ∈ l, key (w a) = a) → (∀ a ∈ acc, key (w a) = a) →
      (l.map w).foldl (fun acc' x => insertAscBy key x acc') (acc.map w) =
        (l.foldl (fun acc' x => insertIntAsc x acc') acc).map w := by
    intro l
    induction l with
    | nil => intro acc _ _; rfl
    | cons x l ih =>
      intro acc hl hacc
      show (l.map w).foldl _ (insertAscBy key (w x) (acc.map w)) = _
      rw [insertAscBy_map_comm key w x acc (hl x (by simp)) hacc]
      exact ih _ (fun a ha => hl a (by simp [ha]))
        (fun a ha => by rcases mem_insertIntAsc.mp ha with rfl | ha
                        · exact hl a (by simp)
                        · exact hacc a ha)
  simpa using main ks [] hks (by simp)

lemma groupWinner_self_append (a : ℤ) (regs : List RawReg) :
    groupWinner a (regs ++ regs) = groupWinner a regs := by
  have hg : vddGroup a (regs ++ regs) = vddGroup a regs ++ vddGroup a regs := by
    simp [vddGroup, List.filter_append]
  unfold groupWinner
  rw [hg]
  cases hgrp : vddGroup a regs with
  | nil => rfl
  | cons h t =>
    show ((t ++ (h :: t)).foldl pickBetter h) = t.foldl pickBetter h
    rw [List.foldl_append]
    exact foldl_pickBetter_of_le _ _ (fun e he => infoScore_le_foldl t h e he)

lemma vddVals_eq (regs : List RawReg) :
    (vddDict regs).map (fun p => p.2) =
      (firstKeys (vddKeys regs)).map (fun a => groupWinner a regs) := by
  rw [vddDict_eq, List.map_map]
  rfl

lemma vddGroup_ne_nil_of_mem_firstKeys {a : ℤ} {regs : List RawReg}
    (ha : a ∈ firstKeys (vddKeys regs)) : vddGroup a regs ≠ [] := by
  intro h
  exact (vddGroup_eq_nil_iff a regs).mp h (mem_firstKeys.mp ha)

lemma addrKeyOf_of_vddKeyOf {r : RawReg} {a : ℤ} (h1 : vddKeyOf r = some a)
    (h2 : (addrKeyOf r).isSome) : addrKeyOf r = some a := by
  cases hr : r.address with
  | none => simp [addrKeyOf, hr] at h2
  | some v =>
    cases v with
    | nonInt => simp [vddKeyOf, hr] at h1
    | int b =>
      have h1' : (if b < 0 then none else some b) = some a := by
        rw [← h1]
        simp [vddKeyOf, hr]
      by_cases hb : b < 0
      · rw [if_pos hb] at h1'
        exact Option.noConfusion h1'
      · rw [if_neg hb] at h1'
        simp [addrKeyOf, hr, Option.some_inj.mp h1']

lemma specValid_keys {r : RawReg} (h : specValid r = true) :
    ∃ a : ℤ, 0 ≤ a ∧ r.address = some (.int a) ∧
      addrKeyOf r = some a ∧ vddKeyOf r = some a := by
  cases hr : r.address with
  | none => simp [specValid, hr] at h
  | some v =>
    cases v with
    | nonInt => simp [specValid, hr] at h
    | int b =>
      have hb : 0 ≤ b := by simpa [specValid, hr] using h
      refine ⟨b, hb, rfl, by simp [addrKeyOf, hr], ?_⟩
      simp only [vddKeyOf, hr, Option.getD_some]
      rw [if_neg (not_lt.mpr hb)]

lemma myFilterMap_congr {α β : Type} (f g : α → Option β) (l : List α)
    (h : ∀ a ∈ l, f a = g a) : l.filterMap f = l.filterMap g := by
  induction l with
  | nil => rfl
  | cons x l ih =>
    rw [List.filterMap_cons, List.filterMap_cons, h x (by simp),
      ih (fun a ha => h a (by simp [ha]))]

lemma myFilter_congr {α : Type} (p q : α → Bool) (l : List α)
    (h : ∀ a ∈ l, p a = q a) : l.filter p = l.filter q := by
  induction l with
  | nil => rfl
  | cons x l ih =>
    rw [List.filter_cons, List.filter_cons, h x (by simp),
      ih (fun a ha => h a (by simp [ha]))]

lemma specGroupWinner_eq_groupWinner {regs : List RawReg} (a : ℤ)
    (h : ∀ r ∈ regs, addrKeyOf r = vddKeyOf r) :
    specGroupWinner a regs = groupWinner a regs := by
  unfold specGroupWinner groupWinner vddGroup
  rw [myFilter_congr _ _ _ (fun r hr => by rw [h r hr])]

/-! ## Claims about `validate_and_deduplicate` -/

/-- C3: the claim says entries whose address is missing are discarded.
They are not: `reg.get("address", 0)` defaults a *missing* address to the
valid key `0`, so the record is kept, and the final
`sorted(..., key=lambda x: x["address"])` then raises `KeyError`
(first conjunct).  Entries whose address is present but non-integer or
negative *are* discarded (second conjunct). -/
theorem claim_C3_missing_address_keyerror :
    validate_and_deduplicate [⟨none, "A".toList, "B".toList⟩] =
      .error ("KeyError: address".toList) ∧
    validate_and_deduplicate
      [⟨some .nonInt, "x".toList, []⟩, ⟨some (.int (-5)), "y".toList, []⟩] = .ok [] :=
  ⟨rfl, rfl⟩

/-- C9: deduplication is idempotent over address-identical duplicated
input: `validate_and_deduplicate (regs ++ regs)` equals
`validate_and_deduplicate regs`, because a later identical copy never
strictly beats the group winner already in the dict. -/
theorem claim_C9_dedup_idempotent_on_duplicated_input (regs : List RawReg) :
    validate_and_deduplicate (regs ++ regs) = validate_and_deduplicate regs := by
  have hd : vddDict (regs ++ regs) = vddDict regs := by
    rw [vddDict_eq (regs ++ regs), vddDict_eq regs]
    have hkeys : vddKeys (regs ++ regs) = vddKeys regs ++ vddKeys regs := by
      simp [vddKeys, List.filterMap_append]
    rw [hkeys, firstKeys_append_of_subset _ _ (fun b hb => hb)]
    exact List.map_congr_left fun a _ => by rw [groupWinner_self_append]
  simp only [validate_and_deduplicate, hd]

/-- C10: whenever `validate_and_deduplicate` succeeds, every returned
entry carries an integer address and the output is strictly increasing by
address (in particular the addresses are pairwise distinct). -/
theorem claim_C10_output_addresses_strictly_increasing
    (regs : List RawReg) (out : List RawReg)
    (hok : validate_and_deduplicate regs = Except.ok out) :
    (∀ r ∈ out, (addrKeyOf r).isSome) ∧
      out.Pairwise (fun r s => addrSortKey r < addrSortKey s) := by
  simp only [validate_and_deduplicate] at hok
  split at hok
  next hall =>
    have hout : out = sortAscBy addrSortKey ((vddDict regs).map (fun p => p.2)) :=
      (Except.ok.inj hok).symm
    have hperm := sortAscBy_perm addrSortKey ((vddDict regs).map (fun p => p.2))
    have hall' : ∀ r ∈ (vddDict regs).map (fun p => p.2), (addrKeyOf r).isSome := by
      intro r hr
      exact List.all_eq_true.mp hall r hr
    constructor
    · intro r hr
      exact hall' r (hperm.subset (by rw [← hout]; exact hr))
    · have hsorted := sortAscBy_pairwise addrSortKey ((vddDict regs).map (fun p => p.2))
      have hkeysvals : ((vddDict regs).map (fun p => p.2)).map addrSortKey =
          firstKeys (vddKeys regs) := by
        rw [vddVals_eq, List.map_map]
        have hpt : ∀ a ∈ firstKeys (vddKeys regs),
            (addrSortKey ∘ fun a => groupWinner a regs) a = a := by
          intro a ha
          have hgrp := vddGroup_ne_nil_of_mem_firstKeys ha
          have h1 := vddKeyOf_groupWinner hgrp
          have h2 : (addrKeyOf (groupWinner a regs)).isSome := by
            refine hall' _ ?_
            rw [vddVals_eq]
            exact List.mem_map_of_mem _ ha
          have h3 := addrKeyOf_of_vddKeyOf h1 h2
          simp [addrSortKey, h3]
        calc (firstKeys (vddKeys regs)).map (addrSortKey ∘ fun a => groupWinner a regs)
            = (firstKeys (vddKeys regs)).map id := List.map_congr_left hpt
          _ = firstKeys (vddKeys regs) := List.map_id _
      have hnd : (((vddDict regs).map (fun p => p.2)).map addrSortKey).Nodup := by
        rw [hkeysvals]
        exact firstKeys_nodup _
      have hnd2 : ((sortAscBy addrSortKey ((vddDict regs).map (fun p => p.2))).map
          addrSortKey).Nodup := ((hperm.map addrSortKey).nodup_iff).mpr hnd
      have hne : (sortAscBy addrSortKey ((vddDict regs).map (fun p => p.2))).Pairwise
          (fun a b => addrSortKey a ≠ addrSortKey b) := List.pairwise_map.mp hnd2
      rw [hout]
      exact (hsorted.and hne).imp (fun h => lt_of_le_of_ne h.1 h.2)
  next hall => exact Except.noConfusion hok

/-- Witness for C10 at a concrete input. -/
theorem claim_C10_output_addresses_strictly_increasing_witness :
    (∀ r ∈ [(⟨some (.int 3), "a".toList, []⟩ : RawReg), ⟨some (.int 7), "b".toList, []⟩],
        (addrKeyOf r).isSome) ∧
      List.Pairwise (fun r s => addrSortKey r < addrSortKey s)
        [(⟨some (.int 3), "a".toList, []⟩ : RawReg), ⟨some (.int 7), "b".toList, []⟩] :=
  claim_C10_output_addresses_strictly_increasing
    [⟨some (.int 7), "b".toList, []⟩, ⟨some (.int 3), "a".toList, []⟩] _ rfl

/-- C7: on inputs whose addresses are all present, integer and
non-negative, `validate_and_deduplicate` returns exactly the
spec-described reconciliation: group by address, keep the strictly more
informative entry (first-wins on ties), sort ascending by address. -/
theorem claim_C7_reconciler_matches_spec (regs : List RawReg)
    (hv : ∀ r ∈ regs, specValid r = true) :
    validate_and_deduplicate regs = Except.ok (reconcile_spec regs) := by
  have hkeys : ∀ r ∈ regs, addrKeyOf r = vddKeyOf r ∧ (addrKeyOf r).isSome := by
    intro r hr
    rcases specValid_keys (hv r hr) with ⟨a, _, _, h3, h4⟩
    rw [h3, h4]
    exact ⟨rfl, rfl⟩
  have hW : ∀ a ∈ firstKeys (vddKeys regs),
      addrKeyOf (groupWinner a regs) = some a ∧ groupWinner a regs ∈ regs := by
    intro a ha
    have hgrp := vddGroup_ne_nil_of_mem_firstKeys ha
    have hmem := (mem_vddGroup (groupWinner_mem hgrp)).1
    have h1 := vddKeyOf_groupWinner hgrp
    exact ⟨by rw [(hkeys _ hmem).1, h1], hmem⟩
  have hall : (((vddDict regs).map (fun p => p.2)).all
      (fun r => (addrKeyOf r).isSome)) = true := by
    rw [vddVals_eq, List.all_eq_true]
    intro r hr
    rcases List.mem_map.mp hr with ⟨a, ha, rfl⟩
    rw [(hW a ha).1]
    rfl
  simp only [validate_and_deduplicate]
  rw [if_pos hall]
  congr 1
  rw [vddVals_eq]
  have hkey : ∀ a ∈ firstKeys (vddKeys regs),
      addrSortKey (groupWinner a regs) = a := by
    intro a ha
    rw [addrSortKey, (hW a ha).1]
    rfl
  rw [sortAscBy_map_comm _ _ _ hkey]
  simp only [reconcile_spec]
  have hfe : regs.filter specValid = regs := List.filter_eq_self.mpr hv
  rw [hfe]
  have hfm : regs.filterMap addrKeyOf = vddKeys regs := by
    unfold vddKeys
    exact myFilterMap_congr _ _ _ (fun r hr => (hkeys r hr).1)
  rw [hfm]
  exact List.map_congr_left fun a _ =>
    (specGroupWinner_eq_groupWinner a (fun r hr => (hkeys r hr).1)).symm

/-- Witness for C7 at the spec §8 scenario (restricted to its valid
entries). -/
theorem claim_C7_reconciler_matches_spec_witness :
    (∀ r ∈ [(⟨some (.int 100), "A".toList, "short".toList⟩ : RawReg),
            ⟨some (.int 100), "Alpha".toList, "much longer description".toList⟩,
            ⟨some (.int 7), "B".toList, "x".toList⟩], specValid r = true) ∧
    validate_and_deduplicate
        [⟨some (.int 100), "A".toList, "short".toList⟩,
         ⟨some (.int 100), "Alpha".toList, "much longer description".toList⟩,
         ⟨some (.int 7), "B".toList, "x".toList⟩] =
      Except.ok (reconcile_spec
        [⟨some (.int 100), "A".toList, "short".toList⟩,
         ⟨some (.int 100), "Alpha".toList, "much longer description".toList⟩,
         ⟨some (.int 7), "B".toList, "x".toList⟩]) :=
  ⟨by decide, claim_C7_reconciler_matches_spec _ (by decide)⟩

/-! ## Stage 2/3 data model: document chunks

`DocumentChunk` (extractorv2 lines 91-99).  `relevance_score` is kept in
tenths (see the header comment).  Of the per-table dicts built in
`extract_structured_content`, only the fields `text` and `raw` are ever
read downstream, so only those are embedded. -/

structure PyTable where
  text : List Char
  raw : List (List (Option (List Char)))
deriving DecidableEq, Repr

structure DocumentChunk where
  text : List Char
  page_number : ℤ
  relevance_score : ℤ
  contains_table : Bool
  section_title : Option (List Char)
  table_data : List PyTable
deriving DecidableEq, Repr

/-! ## Stage 3: `assemble_extraction_context` (extractorv2 lines 418-490) -/

/-- Python `str(n)` for an int. -/
def intToStr (n : ℤ) : List Char :=
  (toString n).toList

/-- Python `str(n)` for a non-negative int. -/
def natToStr (n : ℕ) : List Char :=
  (toString n).toList

/-- Rendering of a tenths-score with one decimal digit, the exact value of
Python `f"{score:.1f}"` for scores that are whole tenths. -/
def scoreFmt1 (t : ℤ) : List Char :=
  (if t < 0 then ['-'] else []) ++
    natToStr (t.natAbs / 10) ++ ['.'] ++ natToStr (t.natAbs % 10)

/-- Python `'='*60`. -/
def eqSep : List Char :=
  List.replicate 60 '='

/-- Python `sep.join(parts)`. -/
def joinSep (sep : List Char) : List (List Char) → List Char
  | [] => []
  | [x] => x
  | x :: xs => x ++ sep ++ joinSep sep xs

/-- Python repr of an int list, e.g. `[2, 3]`. -/
def intListRepr (l : List ℤ) : List Char :=
  ['['] ++ joinSep ", ".toList (l.map intToStr) ++ [']']

/-- Helper for the thousands separator: insert a comma after every three
digits of a reversed digit string. -/
def group3 : List Char → List Char
  | a :: b :: c :: d :: rest => a :: b :: c :: ',' :: group3 (d :: rest)
  | l => l

/-- Python `f"{n:,}"` for a non-negative int. -/
def commaSep (n : ℕ) : List Char :=
  (group3 (natToStr n).reverse).reverse

/-- Tier HIGH (`[c for c in chunks if c.relevance_score > 8.0]`). -/
def high_relevance (chunks : List DocumentChunk) : List DocumentChunk :=
  chunks.filter (fun c => 80 < c.relevance_score)

/-- Tier MEDIUM (`[c for c in chunks if 3.0 < c.relevance_score <= 8.0]`). -/
def medium_relevance (chunks : List DocumentChunk) : List DocumentChunk :=
  chunks.filter (fun c => decide (30 < c.relevance_score ∧ c.relevance_score ≤ 80))

/-- Tier LOW (`[c for c in chunks if c.relevance_score <= 3.0]`). -/
def low_relevance (chunks : List DocumentChunk) : List DocumentChunk :=
  chunks.filter (fun c => c.relevance_score ≤ 30)

/-- The decorated block rendered for a HIGH-tier chunk (lines 451-454). -/
def highBlock (c : DocumentChunk) : List Char :=
  "\n\n".toList ++ eqSep ++ "\nPAGE ".toList ++ intToStr c.page_number ++
    " (Relevance: HIGH - Score: ".toList ++ scoreFmt1 c.relevance_score ++ ")\n".toList ++
    (match c.section_title with
     | some t => "Section: ".toList ++ t ++ "\n".toList
     | none => []) ++
    eqSep ++ "\n".toList ++ c.text

/-- The decorated block rendered for a MEDIUM-tier chunk (line 463). -/
def mediumBlock (c : DocumentChunk) : List Char :=
  "\n\n".toList ++ eqSep ++ "\nPAGE ".toList ++ intToStr c.page_number ++
    " (Relevance: MEDIUM)\n".toList ++ eqSep ++ "\n".toList ++ c.text

/-- The block rendered for a LOW-tier fallback chunk (line 473). -/
def lowBlock (c : DocumentChunk) : List Char :=
  "\n\n--- PAGE ".toList ++ intToStr c.page_number ++ " ---\n".toList ++ c.text

/-- The loop state of the assembly: `context_parts`, `current_length`,
`included_pages`. -/
structure AsmState where
  parts : List (List Char)
  current_length : ℕ
  included_pages : List ℤ
deriving DecidableEq, Repr

/-- Append one block and account for it. -/
def addBlock (st : AsmState) (block : List Char) (page : ℤ) : AsmState :=
  ⟨st.parts ++ [block], st.current_length + block.length, st.included_pages ++ [page]⟩

/-- HIGH loop body: add the block iff
`current_length + len(chunk_text) <= max_chars`. -/
def highFold (maxChars : ℕ) (st : AsmState) (c : DocumentChunk) : AsmState :=
  if st.current_length + (highBlock c).length ≤ maxChars then
    addBlock st (highBlock c) c.page_number
  else st

/-- MEDIUM loop body: ceiling `max_chars * 0.85`, written as the exact
rational comparison `100 * (len + block) ≤ 85 * max_chars`. -/
def mediumFold (maxChars : ℕ) (st : AsmState) (c : DocumentChunk) : AsmState :=
  if 100 * (st.current_length + (mediumBlock c).length) ≤ 85 * maxChars then
    addBlock st (mediumBlock c) c.page_number
  else st

/-- LOW fallback loop body: ceiling `max_chars * 0.6`. -/
def lowFold (maxChars : ℕ) (st : AsmState) (c : DocumentChunk) : AsmState :=
  if 10 * (st.current_length + (lowBlock c).length) ≤ 6 * maxChars then
    addBlock st (lowBlock c) c.page_number
  else st

/-- The `chunk_info` summary f-string (lines 480-486; it has two trailing
blanks after `(scores 3.0-8.0)` in the source). -/
def chunkInfoSummary (chunks high med low : List DocumentChunk)
    (included : List ℤ) (curLen : ℕ) : List Char :=
  "Document Analysis Summary:\n- Total pages in document: ".toList ++
    natToStr chunks.length ++
    "\n- High relevance pages: ".toList ++ natToStr high.length ++
    " (scores > 8.0)\n- Medium relevance pages: ".toList ++ natToStr med.length ++
    " (scores 3.0-8.0)  \n- Low relevance pages: ".toList ++ natToStr low.length ++
    " (scores < 3.0)\n- Pages included in context: ".toList ++
    intListRepr (sortInt included) ++
    "\n- Total context size: ".toList ++ commaSep curLen ++ " characters".toList

/-- The error message of slicing a Python set. -/
def typeErrorMsg : List Char :=
  "TypeError: set object is not subscriptable".toList

/-- Embedding of `assemble_extraction_context` (extractorv2 lines
418-490) at the default `chars_per_token = 3.5` (no caller overrides it),
so `max_chars = int(max_tokens * 3.5) = 7 * max_tokens / 2` exactly.

When `document_hints` is non-empty, line 445 evaluates
`set(document_hints)[:5]`, which slices a `set` and raises `TypeError`
before anything is assembled; this is embedded as `Except.error`.  With no
hints, the three tier walks run and the pair
`(context_text, chunk_info)` is returned. -/
def assemble_extraction_context (chunks : List DocumentChunk)
    (document_hints : List (List Char)) (max_tokens : ℕ) :
    Except (List Char) (List Char × List Char) :=
  let maxChars := 7 * max_tokens / 2
  let high := high_relevance chunks
  let med := medium_relevance chunks
  let low := low_relevance chunks
  match document_hints with
  | _ :: _ => .error typeErrorMsg
  | [] =>
    let st1 := high.foldl (highFold maxChars) ⟨[], 0, []⟩
    let st2 := med.foldl (mediumFold maxChars) st1
    let st3 :=
      if high.length < 3 ∧ 10 * st2.current_length < 4 * maxChars then
        (low.take 10).foldl (lowFold maxChars) st2
      else st2
    .ok (st3.parts.flatten, chunkInfoSummary chunks high med low st3.included_pages st3.current_length)

/-! ## Lemmas about `assemble_extraction_context` -/

lemma asm_inv_foldl (mc : ℕ) (f : AsmState → DocumentChunk → AsmState)
    (hf : ∀ st c, f st c = st ∨
      ∃ b p, f st c = addBlock st b p ∧ st.current_length + b.length ≤ mc) :
    ∀ (l : List DocumentChunk) (st : AsmState),
      st.current_length = st.parts.flatten.length → st.current_length ≤ mc →
      (l.foldl f st).current_length = (l.foldl f st).parts.flatten.length ∧
        (l.foldl f st).current_length ≤ mc := by
  intro l
  induction l with
  | nil => intro st h1 h2; exact ⟨h1, h2⟩
  | cons c l ih =>
    intro st h1 h2
    rcases hf st c with h | ⟨b, p, hb, hle⟩
    · rw [List.foldl_cons, h]
      exact ih st h1 h2
    · rw [List.foldl_cons, hb]
      refine ih _ ?_ ?_
      · show st.current_length + b.length = ((st.parts ++ [b]).flatten).length
        rw [List.flatten_append, List.length_append, h1]
        simp
      · simpa [addBlock] using hle

lemma highFold_guard (mc : ℕ) : ∀ (st : AsmState) (c : DocumentChunk),
    highFold mc st c = st ∨
      ∃ b p, highFold mc st c = addBlock st b p ∧ st.current_length + b.length ≤ mc := by
  intro st c
  unfold highFold
  split
  · exact Or.inr ⟨highBlock c, c.page_number, rfl, by assumption⟩
  · exact Or.inl rfl

lemma mediumFold_guard (mc : ℕ) : ∀ (st : AsmState) (c : DocumentChunk),
    mediumFold mc st c = st ∨
      ∃ b p, mediumFold mc st c = addBlock st b p ∧ st.current_length + b.length ≤ mc := by
  intro st c
  unfold mediumFold
  split
  · refine Or.inr ⟨mediumBlock c, c.page_number, rfl, by omega⟩
  · exact Or.inl rfl

lemma lowFold_guard (mc : ℕ) : ∀ (st : AsmState) (c : DocumentChunk),
    lowFold mc st c = st ∨
      ∃ b p, lowFold mc st c = addBlock st b p ∧ st.current_length + b.length ≤ mc := by
  intro st c
  unfold lowFold
  split
  · refine Or.inr ⟨lowBlock c, c.page_number, rfl, by omega⟩
  · exact Or.inl rfl

/-- With no hints (the only case in which assembly does not raise), the
returned context text never exceeds `max_chars = 7 * max_tokens / 2`:
every tier walk adds a block only when it still fits its ceiling, and
every ceiling is at most `max_chars`. -/
lemma assemble_no_hints_within_budget (chunks : List DocumentChunk) (mt : ℕ)
    (out : List Char × List Char)
    (h : assemble_extraction_context chunks [] mt = .ok out) :
    out.1.length ≤ 7 * mt / 2 := by
  have h1 := asm_inv_foldl (7 * mt / 2) (highFold (7 * mt / 2)) (highFold_guard _)
      (high_relevance chunks) ⟨[], 0, []⟩ rfl (Nat.zero_le _)
  have h2 := asm_inv_foldl (7 * mt / 2) (mediumFold (7 * mt / 2)) (mediumFold_guard _)
      (medium_relevance chunks) _ h1.1 h1.2
  simp only [assemble_extraction_context] at h
  split at h
  · have h3 := asm_inv_foldl (7 * mt / 2) (lowFold (7 * mt / 2)) (lowFold_guard _)
        ((low_relevance chunks).take 10) _ h2.1 h2.2
    have hout := (Except.ok.inj h).symm
    rw [hout]
    exact h3.1 ▸ h3.2
  · have hout := (Except.ok.inj h).symm
    rw [hout]
    exact h2.1 ▸ h2.2

/-! ## Claims about `assemble_extraction_context` -/

/-- C1: the deduplicated first-5 hint preamble is never emitted.  For any
non-empty `document_hints`, line 445 evaluates `set(document_hints)[:5]`,
which slices a Python `set` and raises `TypeError`, so the function
returns no context at all (and `set` would not preserve discovery order
even if it were sliceable). -/
theorem claim_C1_hint_preamble_never_emitted :
    assemble_extraction_context
        [⟨"modbus register map".toList, 2, 95, false, none, []⟩]
        ["PDU addressing: add 40000 to addresses: ...add 40,000 to the address...".toList,
         "PDU addressing: add 40000 to addresses: ...add 40,000 to the address...".toList,
         "Byte order specified: ...big endian...".toList] 80000 =
      .error typeErrorMsg := rfl

/-- C2: assembly does not always return without exception: any non-empty
hint list makes it raise `TypeError` at `set(document_hints)[:5]` (first
conjunct, refuting the claim).  In the hint-free case it does return, and
then the budget is respected: `len(context_text) <= max_chars` (second
conjunct). -/
theorem claim_C2_budget_respected_but_hints_raise :
    (assemble_extraction_context []
        ["Uses PDU addressing convention: ...pdu addressing...".toList] 80000 =
      .error typeErrorMsg) ∧
    ∀ (chunks : List DocumentChunk) (mt : ℕ) (out : List Char × List Char),
      assemble_extraction_context chunks [] mt = .ok out → out.1.length ≤ 7 * mt / 2 :=
  ⟨rfl, assemble_no_hints_within_budget⟩

/-- Witness for the budget part of C2 at a concrete input. -/
theorem claim_C2_budget_respected_but_hints_raise_witness :
    ((([] : List Char), chunkInfoSummary [] [] [] [] [] 0).1).length ≤ 7 * 0 / 2 :=
  claim_C2_budget_respected_but_hints_raise.2 [] 0 ([], chunkInfoSummary [] [] [] [] [] 0) rfl

lemma tier_length_partition (chunks : List DocumentChunk) :
    (high_relevance chunks).length + (medium_relevance chunks).length +
      (low_relevance chunks).length = chunks.length := by
  induction chunks with
  | nil => rfl
  | cons c l ih =>
    simp only [high_relevance, medium_relevance, low_relevance, List.filter_cons,
      decide_eq_true_eq] at ih ⊢
    by_cases h8 : 80 < c.relevance_score
    · rw [if_pos h8,
        if_neg (by omega : ¬(30 < c.relevance_score ∧ c.relevance_score ≤ 80)),
        if_neg (by omega : ¬c.relevance_score ≤ 30)]
      simp only [List.length_cons]
      omega
    · by_cases h3 : 30 < c.relevance_score
      · rw [if_neg h8,
          if_pos (⟨h3, by omega⟩ : 30 < c.relevance_score ∧ c.relevance_score ≤ 80),
          if_neg (by omega : ¬c.relevance_score ≤ 30)]
        simp only [List.length_cons]
        omega
      · rw [if_neg h8,
          if_neg (by omega : ¬(30 < c.relevance_score ∧ c.relevance_score ≤ 80)),
          if_pos (by omega : c.relevance_score ≤ 30)]
        simp only [List.length_cons]
        omega

/-- C6: the HIGH / MEDIUM / LOW tier lists computed by the assembler
partition the chunk list: every chunk belongs to exactly one tier, and the
tier sizes sum to the total number of chunks. -/
theorem claim_C6_tier_partition (chunks : List DocumentChunk) (c : DocumentChunk)
    (hc : c ∈ chunks) :
    ((c ∈ high_relevance chunks ∧ c ∉ medium_relevance chunks ∧ c ∉ low_relevance chunks) ∨
     (c ∉ high_relevance chunks ∧ c ∈ medium_relevance chunks ∧ c ∉ low_relevance chunks) ∨
     (c ∉ high_relevance chunks ∧ c ∉ medium_relevance chunks ∧ c ∈ low_relevance chunks)) ∧
    (high_relevance chunks).length + (medium_relevance chunks).length +
        (low_relevance chunks).length = chunks.length := by
  constructor
  · have hhigh : c ∈ high_relevance chunks ↔ 80 < c.relevance_score := by
      simp [high_relevance, List.mem_filter, hc]
    have hmed : c ∈ medium_relevance chunks ↔
        (30 < c.relevance_score ∧ c.relevance_score ≤ 80) := by
      simp [medium_relevance, List.mem_filter, hc]
    have hlow : c ∈ low_relevance chunks ↔ c.relevance_score ≤ 30 := by
      simp [low_relevance, List.mem_filter, hc]
    rw [hhigh, hmed, hlow]
    omega
  · exact tier_length_partition chunks

/-- Witness for C6 at a concrete chunk list. -/
theorem claim_C6_tier_partition_witness :
    (((⟨"x".toList, 1, 95, false, none, []⟩ : DocumentChunk) ∈
        high_relevance [⟨"x".toList, 1, 95, false, none, []⟩, ⟨[], 2, 0, false, none, []⟩] ∧
      (⟨"x".toList, 1, 95, false, none, []⟩ : DocumentChunk) ∉
        medium_relevance [⟨"x".toList, 1, 95, false, none, []⟩, ⟨[], 2, 0, false, none, []⟩] ∧
      (⟨"x".toList, 1, 95, false, none, []⟩ : DocumentChunk) ∉
        low_relevance [⟨"x".toList, 1, 95, false, none, []⟩, ⟨[], 2, 0, false, none, []⟩]) ∨
     ((⟨"x".toList, 1, 95, false, none, []⟩ : DocumentChunk) ∉
        high_relevance [⟨"x".toList, 1, 95, false, none, []⟩, ⟨[], 2, 0, false, none, []⟩] ∧
      (⟨"x".toList, 1, 95, false, none, []⟩ : DocumentChunk) ∈
        medium_relevance [⟨"x".toList, 1, 95, false, none, []⟩, ⟨[], 2, 0, false, none, []⟩] ∧
      (⟨"x".toList, 1, 95, false, none, []⟩ : DocumentChunk) ∉
        low_relevance [⟨"x".toList, 1, 95, false, none, []⟩, ⟨[], 2, 0, false, none, []⟩]) ∨
     ((⟨"x".toList, 1, 95, false, none, []⟩ : DocumentChunk) ∉
        high_relevance [⟨"x".toList, 1, 95, false, none, []⟩, ⟨[], 2, 0, false, none, []⟩] ∧
      (⟨"x".toList, 1, 95, false, none, []⟩ : DocumentChunk) ∉
        medium_relevance [⟨"x".toList, 1, 95, false, none, []⟩, ⟨[], 2, 0, false, none, []⟩] ∧
      (⟨"x".toList, 1, 95, false, none, []⟩ : DocumentChunk) ∈
        low_relevance [⟨"x".toList, 1, 95, false, none, []⟩, ⟨[], 2, 0, false, none, []⟩])) ∧
    (high_relevance [⟨"x".toList, 1, 95, false, none, []⟩, ⟨[], 2, 0, false, none, []⟩]).length +
      (medium_relevance [⟨"x".toList, 1, 95, false, none, []⟩, ⟨[], 2, 0, false, none, []⟩]).length +
      (low_relevance [⟨"x".toList, 1, 95, false, none, []⟩, ⟨[], 2, 0, false, none, []⟩]).length =
      ([⟨"x".toList, 1, 95, false, none, []⟩, (⟨[], 2, 0, false, none, []⟩ : DocumentChunk)]).length :=
  claim_C6_tier_partition
    [⟨"x".toList, 1, 95, false, none, []⟩, ⟨[], 2, 0, false, none, []⟩]
    ⟨"x".toList, 1, 95, false, none, []⟩ (by simp)

/-! ## A small regex fragment

The scoring code uses a fixed set of regular expressions.  Each one is a
plain concatenation of literals, character-class runs with repetition
bounds, word boundaries and an optional end anchor, with alternation only
at the top level — so we embed exactly that fragment.  `seqOk items s i`
decides, by trying every split (which is what the backtracking engine
does), whether some match of the item sequence starts at position `i`;
`searchP` is Python `re.search`, `matchP` is `re.match` (anchored at the
start). -/

inductive PItem where
  | lit (w : List Char)
  | cls (p : Char → Bool) (mn : ℕ) (mx : Option ℕ)
  | bd
  | eos

/-- Whether the character at index `i` (if any) is a word character. -/
def atIsWord (s : List Char) (i : ℕ) : Bool :=
  match s.drop i with
  | [] => false
  | c :: _ => isWordChar c

/-- Regex `\b` at position `i`: exactly one of the two neighbouring
positions holds a word character. -/
def bdAt (s : List Char) (i : ℕ) : Bool :=
  ((!(i == 0)) && atIsWord s (i - 1)) != atIsWord s i

/-- A run of exactly `k` characters satisfying `p` starts at index `i`
(and lies entirely inside `s`). -/
def runAt (s : List Char) (i k : ℕ) (p : Char → Bool) : Bool :=
  ((s.drop i).take k).all p && decide (((s.drop i).take k).length = k)

def seqOk : List PItem → List Char → ℕ → Bool
  | [], _, _ => true
  | PItem.lit w :: rest, s, i => occursAt s w i && seqOk rest s (i + w.length)
  | PItem.cls p mn mx :: rest, s, i =>
    (List.range (s.length - i + 1)).any (fun k =>
      decide (mn ≤ k) && (match mx with | none => true | some m => decide (k ≤ m)) &&
        runAt s i k p && seqOk rest s (i + k))
  | PItem.bd :: rest, s, i => bdAt s i && seqOk rest s i
  | PItem.eos :: rest, s, i => decide (s.length ≤ i) && seqOk rest s i

/-- Python `re.search(pattern, s)` (as a Boolean). -/
def searchP (items : List PItem) (s : List Char) : Bool :=
  (List.range (s.length + 1)).any (fun i => seqOk items s i)

/-- Python `re.match(pattern, s)` (anchored at the start). -/
def matchP (items : List PItem) (s : List Char) : Bool :=
  seqOk items s 0

/-- Regex class `[0-9a-f]` (the scanned text is lowercased first, which
also implements the `re.I` flags in the source). -/
def isHexLower (c : Char) : Bool :=
  c.isDigit || ('a' ≤ c && c ≤ 'f')

/-- Regex class `[\d./]`. -/
def isDigitDotSlash (c : Char) : Bool :=
  c.isDigit || c = '.' || c = '/'

/-- Regex class `[\d.]`. -/
def isDigitDot (c : Char) : Bool :=
  c.isDigit || c = '.'

/-- Regex `.` (anything but a newline; no DOTALL flag in the source). -/
def isNonNl (c : Char) : Bool :=
  !(c = '\n')

/-- Regex class `[A-Z\s]`. -/
def isUpperOrSpace (c : Char) : Bool :=
  c.isUpper || isPySpace c

/-! The 13 strong indicator patterns of `_has_register_indicators`
(lines 180-194), in source order; the alternation
`\bregister\s*(address|map|table|list)\b` is expanded into its four
branches. -/

def patModbus : List PItem := [.bd, .lit "modbus".toList, .bd]

def patRegisterPhrase (w : String) : List PItem :=
  [.bd, .lit "register".toList, .cls isPySpace 0 none, .lit w.toList, .bd]

def pat40xxx : List PItem := [.bd, .lit "40".toList, .cls Char.isDigit 3 (some 4), .bd]

def pat30xxx : List PItem := [.bd, .lit "30".toList, .cls Char.isDigit 3 (some 4), .bd]

def patHoldingRegister : List PItem :=
  [.bd, .lit "holding".toList, .cls isPySpace 0 none, .lit "register".toList]

def patInputRegister : List PItem :=
  [.bd, .lit "input".toList, .cls isPySpace 0 none, .lit "register".toList]

def patCoilAddress : List PItem :=
  [.bd, .lit "coil".toList, .bd, .cls isNonNl 0 none, .bd, .lit "address".toList, .bd]

def patReadWrite : List PItem :=
  [.bd, .lit "read".toList, .cls isNonNl 0 (some 1), .lit "write".toList, .bd]

def patRW : List PItem :=
  [.bd, .lit "r".toList, .cls (fun c => c = '/') 0 (some 1), .lit "w".toList, .bd]

def patHexAddrBd : List PItem := [.lit "0x".toList, .cls isHexLower 2 (some 4), .bd]

def patScalingColon : List PItem :=
  [.lit "scaling:".toList, .cls isPySpace 0 none, .cls isDigitDotSlash 1 none]

def patOffsetColon : List PItem :=
  [.lit "offset:".toList, .cls isPySpace 0 none, .cls (fun c => c = '-') 0 (some 1),
   .cls isDigitDot 1 none]

def patDataRange : List PItem :=
  [.lit "data".toList, .cls isPySpace 0 none, .lit "range".toList]

def strongPatterns : List (List PItem) :=
  [patModbus,
   patRegisterPhrase "address", patRegisterPhrase "map",
   patRegisterPhrase "table", patRegisterPhrase "list",
   pat40xxx, pat30xxx, patHoldingRegister, patInputRegister, patCoilAddress,
   patReadWrite, patRW, patHexAddrBd, patScalingColon, patOffsetColon, patDataRange]

/-- Score-bonus regex `0x[0-9a-f]{2,4}` (line 295; no trailing `\b`). -/
def patHexAddr : List PItem := [.lit "0x".toList, .cls isHexLower 2 (some 4)]

/-- Score-bonus regex `scaling:\s*[\d./]+\s*\w+/bit` (line 297). -/
def patScalingPerBit : List PItem :=
  [.lit "scaling:".toList, .cls isPySpace 0 none, .cls isDigitDotSlash 1 none,
   .cls isPySpace 0 none, .cls isWordChar 1 none, .lit "/bit".toList]

/-! ## Stage 1: `_has_register_indicators` (lines 173-214) -/

/-- The fixed table-header vocabulary `register_headers` (lines 201-206). -/
def registerHeaders : List (List Char) :=
  ["address", "register", "offset", "name", "datatype",
   "type", "data type", "description", "access", "r/w",
   "rw", "read", "write", "function", "value", "range",
   "scaling", "parameter", "holding", "sec lvl", "ct"].map String.toList

/-- Number of vocabulary entries present in the header row, i.e. the size
of `headers & register_headers` where
`headers = {str(h).lower().strip() for h in raw[0] if h}`. -/
def headerIndicatorCount (row : List (Option (List Char))) : ℕ :=
  (registerHeaders.filter (fun w => row.any (fun h =>
    match h with
    | none => false
    | some hs => !hs.isEmpty && decide (pyStrip (pyLower hs) = w)))).length

/-- Header-based indicator for one table:
`if table_data["raw"] and table_data["raw"][0]` and the intersection has
at least 2 entries. -/
def tableHeaderIndicator (t : PyTable) : Bool :=
  match t.raw with
  | [] => false
  | row0 :: _ => !row0.isEmpty && decide (2 ≤ headerIndicatorCount row0)

/-- Embedding of `_has_register_indicators(text, tables)`. -/
def has_register_indicators (text : List Char) (tables : List PyTable) : Bool :=
  strongPatterns.any (fun pat => searchP pat (pyLower text)) ||
    tables.any tableHeaderIndicator

/-! ## Stage 2: keyword density (lines 317-343) -/

/-- The keyword→weight dict (lines 324-336), weights in tenths. -/
def keywordWeights : List (List Char × ℤ) :=
  [("modbus", 15), ("register", 10), ("holding", 8), ("coil", 8),
   ("scaling", 12), ("offset", 10), ("data range", 10),
   ("address", 5), ("uint16", 8), ("int16", 8), ("uint32", 8),
   ("int32", 8), ("float32", 8), ("r/w", 7), ("read/write", 7),
   ("function code", 6), ("fc03", 8), ("fc06", 8), ("fc16", 8),
   ("slave", 4), ("master", 4), ("rtu", 5), ("tcp/ip", 4),
   ("parameter", 3), ("setpoint", 4), ("status", 3)].map
    (fun p => (p.1.toList, p.2))

/-- Embedding of `_calculate_keyword_density_score` (per-keyword
contribution `min(count * weight, 5.0)`, summed; `5.0` is `50` tenths). -/
def calculate_keyword_density_score (text : List Char) : ℤ :=
  let text_lower := pyLower text
  if (pyStrip text_lower).isEmpty then 0
  else keywordWeights.foldl
    (fun acc kw => acc + min ((pyCount text_lower kw.1 : ℤ) * kw.2) 50) 0

/-! ## Stage 2: table-structure score (lines 346-394) -/

/-- The `header_scores` dict (lines 357-364), in tenths, in source
(insertion) order — the per-header loop takes the *first* key that is a
substring of the header and breaks. -/
def headerScores : List (List Char × ℤ) :=
  [("address", 25), ("register", 25), ("offset", 20), ("holding", 20),
   ("name", 10), ("parameter", 15), ("description", 10), ("desc", 10),
   ("type", 10), ("datatype", 20), ("data type", 20), ("ct", 10),
   ("access", 15), ("r/w", 20), ("rw", 20), ("read/write", 20),
   ("scaling", 20), ("resolution", 15), ("range", 10), ("unit", 8),
   ("sec lvl", 10), ("security", 8)].map (fun p => (p.1.toList, p.2))

/-- Contribution of one header cell: first matching key in dict order. -/
def headerScoreOf (hdr : List Char) : ℤ :=
  match headerScores.find? (fun kv => containsSub hdr kv.1) with
  | some kv => kv.2
  | none => 0

/-- The address-shaped cell regex
`^(0x[0-9a-f]+|[34]0[0-9]{2,4}|[0-9]{1,5})$` with `re.I`, applied to the
stripped cell (the embedded text is lowercased, which implements `re.I`;
cells contain no trailing newline, so `$` is end-of-string). -/
def addressShaped (cell : List Char) : Bool :=
  matchP [.lit "0x".toList, .cls isHexLower 1 none, .eos] (pyLower cell) ||
  matchP [.cls (fun c => c = '3' || c = '4') 1 (some 1), .lit "0".toList,
          .cls Char.isDigit 2 (some 4), .eos] (pyLower cell) ||
  matchP [.cls Char.isDigit 1 (some 5), .eos] (pyLower cell)

/-- Embedding of `_score_table_structure` (scores in tenths). -/
def score_table_structure (table : List (List (Option (List Char)))) : ℤ :=
  match table with
  | [] => 0
  | row0 :: _ =>
    if table.length < 2 then 0
    else
      let headers := row0.map (fun h =>
        match h with
        | none => []
        | some s => if s.isEmpty then [] else pyStrip (pyLower s))
      let headerScore := headers.foldl (fun acc h => acc + headerScoreOf h) 0
      let dataRows := (table.drop 1).take 9
      let addressLike := (dataRows.filter (fun row =>
        !row.isEmpty && (row.take 3).any (fun cell =>
          match cell with
          | none => false
          | some cs => !cs.isEmpty && addressShaped (pyStrip cs)))).length
      let addrBonus : ℤ := if 3 ≤ addressLike then 40 else if 1 ≤ addressLike then 20 else 0
      let sizeBonus : ℤ := if 20 < table.length then 20 else if 10 < table.length then 10 else 0
      headerScore + addrBonus + sizeBonus

/-! ## Stage 2: `_extract_section_title` (lines 397-411) -/

/-- Line pattern `^(APPENDIX\s+[A-Z])` with `re.I`. -/
def titlePatternAppendix (l : List Char) : Bool :=
  matchP [.lit "appendix".toList, .cls isPySpace 1 none, .cls Char.isAlpha 1 (some 1)]
    (pyLower l)

/-- The case-sensitive core `[A-Z][A-Z\s]{3,50}$` of the second line
pattern. -/
def allCapsCore : List PItem :=
  [.cls Char.isUpper 1 (some 1), .cls isUpperOrSpace 3 (some 50), .eos]

/-- The optional numeric-prefix group `(\d+\.?\d*\.?\d*\s+)?`. -/
def numPrefixItems : List PItem :=
  [.cls Char.isDigit 1 none, .cls (fun c => c = '.') 0 (some 1), .cls Char.isDigit 0 none,
   .cls (fun c => c = '.') 0 (some 1), .cls Char.isDigit 0 none, .cls isPySpace 1 none]

/-- Line pattern `^(\d+\.?\d*\.?\d*\s+)?[A-Z][A-Z\s]{3,50}$` (the optional
group is expanded into its two branches). -/
def titlePatternAllCaps (l : List Char) : Bool :=
  matchP (numPrefixItems ++ allCapsCore) l || matchP allCapsCore l

/-- Line pattern `^(Chapter|Section|Appendix)\s+\w` with `re.I`. -/
def titlePatternChapter (l : List Char) : Bool :=
  ["chapter", "section", "appendix"].any (fun w =>
    matchP [.lit w.toList, .cls isPySpace 1 none, .cls isWordChar 1 (some 1)] (pyLower l))

/-- The per-line test of `_extract_section_title`: return the (already
stripped) line if it matches one of the three patterns. -/
def titleLineMatch (l : List Char) : Option (List Char) :=
  if titlePatternAppendix l || titlePatternAllCaps l || titlePatternChapter l then some l
  else none

/-- Embedding of `_extract_section_title`: the first of the first 10
lines of the stripped text that (itself stripped) matches one of the
three patterns. -/
def extract_section_title (text : List Char) : Option (List Char) :=
  ((splitNl (pyStrip text)).take 10).findSome? (fun l0 => titleLineMatch (pyStrip l0))

/-! ## Stage 1/2: page records and `score_and_rank_content` (lines 254-314) -/

/-- One entry of `structured_data["pages"]` as built by
`extract_structured_content` (only the fields read downstream). -/
structure PageData where
  page_num : ℤ
  text : List Char
  tables : List PyTable
  has_register_indicators : Bool
deriving Repr

/-- Embedding of `_table_to_text` (lines 163-170). -/
def tableToText (table : List (List (Option (List Char)))) : List Char :=
  joinSep "\n".toList ((table.filter (fun row => !row.isEmpty)).map (fun row =>
    joinSep " | ".toList (row.map (fun cell =>
      match cell with
      | none => []
      | some s => if s.isEmpty then [] else pyStrip s))))

/-- The per-page processing of `extract_structured_content` (lines
122-154) minus the external PDF reader: keep tables with more than one
row, serialize them, and precompute the register-indicator flag. -/
def mkPageData (page_num : ℤ) (text : List Char)
    (rawTables : List (List (List (Option (List Char))))) : PageData :=
  let tables := (rawTables.filter (fun t => !t.isEmpty && decide (1 < t.length))).map
    (fun t => PyTable.mk (tableToText t) t)
  ⟨page_num, text, tables, has_register_indicators text tables⟩

/-- The loop body of `score_and_rank_content` (lines 260-309): score one
page and build its `DocumentChunk`.  The running `score += ...` total is
written as an explicit sum of its contributions, in source order. -/
def analyzePage (page : PageData) : DocumentChunk :=
  let indicatorScore : ℤ := if page.has_register_indicators then 50 else 0
  let keywordScore := calculate_keyword_density_score page.text
  let tableScore := page.tables.foldl (fun acc t => acc + score_table_structure t.raw) 0
  let table_texts := (page.tables.filter (fun t => 20 < score_table_structure t.raw)).map
    (fun t => "\n[TABLE DATA]\n".toList ++ t.text)
  let text_content :=
    if table_texts.isEmpty then page.text
    else page.text ++ joinSep "\n".toList table_texts
  let section_title := extract_section_title text_content
  let titleScore : ℤ :=
    match section_title with
    | none => 0
    | some t =>
      (if ["modbus", "register", "appendix", "data point"].any
          (fun kw => containsSub (pyLower t) kw.toList) then 40 else 0) +
      (if containsSub (pyLower t) "appendix".toList &&
          ["register", "address", "scaling"].any
            (fun kw => containsSub (pyLower text_content) kw.toList) then 60 else 0)
  let hexScore : ℤ := if searchP patHexAddr (pyLower text_content) then 20 else 0
  let scalingScore : ℤ := if searchP patScalingPerBit (pyLower text_content) then 30 else 0
  let offsetScore : ℤ := if searchP patOffsetColon (pyLower text_content) then 20 else 0
  ⟨text_content, page.page_num,
    indicatorScore + keywordScore + tableScore + titleScore + hexScore + scalingScore +
      offsetScore,
    !page.tables.isEmpty, section_title, page.tables⟩

/-- Stable insertion, descending by `relevance_score`: an earlier chunk
stays in front of a later one with the same score.  Folding this over the
chunk list is exactly Python's stable
`chunks.sort(key=lambda x: x.relevance_score, reverse=True)`. -/
def insertDescChunk (x : DocumentChunk) : List DocumentChunk → List DocumentChunk
  | [] => [x]
  | y :: ys =>
    if x.relevance_score ≤ y.relevance_score then y :: insertDescChunk x ys
    else x :: y :: ys

/-- Embedding of `score_and_rank_content`: one chunk per page, then the
stable descending sort of line 312. -/
def score_and_rank_content (pages : List PageData) : List DocumentChunk :=
  (pages.map analyzePage).foldl (fun acc c => insertDescChunk c acc) []

/-! ## Claims about `score_and_rank_content` -/

/-- The ranking order the spec requires: strictly higher score first,
ties broken by ascending page number. -/
def chunkRankOrder (a b : DocumentChunk) : Prop :=
  b.relevance_score < a.relevance_score ∨
    (b.relevance_score = a.relevance_score ∧ a.page_number < b.page_number)

instance : DecidableRel chunkRankOrder := fun _ _ => by
  unfold chunkRankOrder
  infer_instance

lemma score_le_of_chunkRankOrder {a b : DocumentChunk} (h : chunkRankOrder a b) :
    b.relevance_score ≤ a.relevance_score := by
  rcases h with h | ⟨h, _⟩ <;> omega

lemma insertDescChunk_perm (x : DocumentChunk) (l : List DocumentChunk) :
    List.Perm (insertDescChunk x l) (x :: l) := by
  induction l with
  | nil => exact List.Perm.refl _
  | cons y ys ih =>
    unfold insertDescChunk
    split
    · exact (ih.cons y).trans (List.Perm.swap x y ys)
    · exact List.Perm.refl _

lemma mem_insertDescChunk {x z : DocumentChunk} {l : List DocumentChunk} :
    z ∈ insertDescChunk x l ↔ z = x ∨ z ∈ l := by
  rw [(insertDescChunk_perm x l).mem_iff, List.mem_cons]

lemma insertDescChunk_pairwise (x : DocumentChunk) (l : List DocumentChunk)
    (hl : l.Pairwise chunkRankOrder)
    (hx : ∀ y ∈ l, y.relevance_score = x.relevance_score →
      y.page_number < x.page_number) :
    (insertDescChunk x l).Pairwise chunkRankOrder := by
  induction l with
  | nil => simp [insertDescChunk, List.pairwise_cons]
  | cons y ys ih =>
    rcases List.pairwise_cons.mp hl with ⟨hy, hys⟩
    unfold insertDescChunk
    split
    · refine List.pairwise_cons.mpr ⟨?_, ih hys (fun z hz => hx z (by simp [hz]))⟩
      intro z hz
      rcases mem_insertDescChunk.mp hz with rfl | hz'
      · rcases lt_or_eq_of_le (by assumption : z.relevance_score ≤ y.relevance_score) with hlt | heq
        · exact Or.inl hlt
        · exact Or.inr ⟨heq, hx y (by simp) heq.symm⟩
      · exact hy z hz'
    · refine List.pairwise_cons.mpr ⟨?_, hl⟩
      intro z hz
      have hxy : y.relevance_score < x.relevance_score := by
        have := (by assumption : ¬x.relevance_score ≤ y.relevance_score)
        omega
      rcases List.mem_cons.mp hz with rfl | hz'
      · exact Or.inl hxy
      · exact Or.inl (by have := score_le_of_chunkRankOrder (hy z hz'); omega)

lemma foldl_insertDescChunk_perm :
    ∀ (l acc : List DocumentChunk),
      List.Perm (l.foldl (fun acc c => insertDescChunk c acc) acc) (acc ++ l) := by
  intro l
  induction l with
  | nil => intro acc; simp
  | cons x l ih =>
    intro acc
    have h1 : (x :: l).foldl (fun acc c => insertDescChunk c acc) acc
        = l.foldl (fun acc c => insertDescChunk c acc) (insertDescChunk x acc) := rfl
    rw [h1]
    have h2 := ih (insertDescChunk x acc)
    have h3 : List.Perm (insertDescChunk x acc ++ l) ((x :: acc) ++ l) :=
      (insertDescChunk_perm x acc).append_right l
    have h4 : List.Perm ((x :: acc) ++ l) (acc ++ x :: l) := List.perm_middle.symm
    exact (h2.trans h3).trans h4

lemma rank_pairwise_aux :
    ∀ (l : List PageData) (acc : List DocumentChunk),
      acc.Pairwise chunkRankOrder →
      (∀ c ∈ acc, ∀ p ∈ l, c.page_number < p.page_num) →
      l.Pairwise (fun p q => p.page_num < q.page_num) →
      ((l.map analyzePage).foldl (fun acc c => insertDescChunk c acc) acc).Pairwise
        chunkRankOrder := by
  intro l
  induction l with
  | nil => intro acc h _ _; exact h
  | cons p l ih =>
    intro acc hacc hpage hl
    rcases List.pairwise_cons.mp hl with ⟨hp, hl'⟩
    show ((l.map analyzePage).foldl _ (insertDescChunk (analyzePage p) acc)).Pairwise _
    apply ih
    · apply insertDescChunk_pairwise _ _ hacc
      intro y hy _
      exact hpage y hy p (by simp)
    · intro c hc q hq
      rcases mem_insertDescChunk.mp hc with rfl | hc'
      · show (analyzePage p).page_number < q.page_num
        have hpg : (analyzePage p).page_number = p.page_num := rfl
        rw [hpg]
        exact hp q hq
      · exact hpage c hc' q (by simp [hq])
    · exact hl'

/-- C5: ranking is total and lossless (the result is a permutation of the
one-chunk-per-page list), sorted descending by score with ties broken by
ascending page number (for pages supplied in ascending page order, as the
extractor produces them), and — being a pure function — deterministic. -/
theorem claim_C5_rank_total_sorted_deterministic (pages : List PageData)
    (hasc : pages.Pairwise (fun p q => p.page_num < q.page_num)) :
    List.Perm (score_and_rank_content pages) (pages.map analyzePage) ∧
    (score_and_rank_content pages).Pairwise chunkRankOrder ∧
    score_and_rank_content pages = score_and_rank_content pages := by
  refine ⟨?_, ?_, rfl⟩
  · simpa using foldl_insertDescChunk_perm (pages.map analyzePage) []
  · exact rank_pairwise_aux pages [] (by simp) (by simp) hasc

/-- Witness for C5 on a two-page document (both pages score 0, so the
tie-break is exercised). -/
theorem claim_C5_rank_total_sorted_deterministic_witness :
    List.Perm (score_and_rank_content [⟨1, [], [], false⟩, ⟨2, [], [], false⟩])
      ([(⟨1, [], [], false⟩ : PageData), ⟨2, [], [], false⟩].map analyzePage) ∧
    (score_and_rank_content [⟨1, [], [], false⟩, ⟨2, [], [], false⟩]).Pairwise
      chunkRankOrder ∧
    score_and_rank_content [⟨1, [], [], false⟩, ⟨2, [], [], false⟩] =
      score_and_rank_content [⟨1, [], [], false⟩, ⟨2, [], [], false⟩] :=
  claim_C5_rank_total_sorted_deterministic
    [⟨1, [], [], false⟩, ⟨2, [], [], false⟩] (by decide)

/-! ## Claim C8: behaviour of the pipeline on an empty page sequence -/

/-- C8 counterexample: on an empty page sequence nothing signals an
"empty document" error — ranking silently returns the empty chunk list
and assembly returns successfully with an empty context text. -/
theorem claim_C8_empty_input_silently_returns_empty :
    score_and_rank_content [] = [] ∧
    assemble_extraction_context [] [] 80000 =
      .ok ([], chunkInfoSummary [] [] [] [] [] 0) :=
  ⟨rfl, rfl⟩

/-- C8 amended: for an empty page sequence and any token budget, the
pipeline raises no error condition: the ranking is the empty list and
assembly returns `ok` with an empty context text. -/
theorem claim_C8_amended_empty_input_no_error (mt : ℕ) :
    score_and_rank_content [] = [] ∧
    assemble_extraction_context [] [] mt =
      .ok ([], chunkInfoSummary [] [] [] [] [] 0) := by
  refine ⟨rfl, ?_⟩
  simp only [assemble_extraction_context]
  split
  · rfl
  · rfl

/-! ## Claim C4: monotonicity of the page score under appended tokens -/

/-- C4 counterexample: appending the strong indicator token `" 40001"`
to the page text `"MODBUS MAP"` (no tables) *decreases* the score from
`10.5` to `6.5` (in tenths: 105 to 65): the token merges into the page's
single line, which stops matching the ALL-CAPS section-title pattern, so
the `+4.0` title bonus is lost while no new signal is gained. -/
theorem claim_C4_append_token_decreases_score :
    (analyzePage (mkPageData 1 ("MODBUS MAP".toList ++ " 40001".toList) [])).relevance_score <
      (analyzePage (mkPageData 1 "MODBUS MAP".toList [])).relevance_score ∧
    searchP pat40xxx (pyLower " 40001".toList) = true ∧
    searchP pat40xxx (pyLower ("MODBUS MAP".toList ++ " 40001".toList)) = true := by
  decide

lemma band_elim {a b : Bool} (h : (a && b) = true) : a = true ∧ b = true := by
  simp only [Bool.and_eq_true] at h
  exact h

lemma band_intro2 {a b : Bool} (h : a = true ∧ b = true) : (a && b) = true := by
  simp only [Bool.and_eq_true]
  exact h

/-- A pattern with no end anchor. -/
def noEos : List PItem → Bool
  | [] => true
  | PItem.eos :: _ => false
  | _ :: rest => noEos rest

lemma startsWith_append (k l u : List Char) (h : startsWith k l = true) :
    startsWith k (l ++ u) = true := by
  induction k generalizing l with
  | nil => rfl
  | cons a k ih =>
    cases l with
    | nil => simp [startsWith] at h
    | cons b l =>
      simp only [startsWith, List.cons_append, Bool.and_eq_true, decide_eq_true_eq] at h ⊢
      exact ⟨h.1, ih l h.2⟩

lemma startsWith_length_le {k l : List Char} (h : startsWith k l = true) :
    k.length ≤ l.length := by
  induction k generalizing l with
  | nil => simp
  | cons a k ih =>
    cases l with
    | nil => simp [startsWith] at h
    | cons b l =>
      simp only [startsWith, Bool.and_eq_true] at h
      simpa [List.length_cons] using ih h.2

lemma drop_append_of_le (s u : List Char) (i : ℕ) (hi : i ≤ s.length) :
    (s ++ u).drop i = s.drop i ++ u := by
  rw [List.drop_append_eq_append_drop]
  have h0 : i - s.length = 0 := by omega
  rw [h0, List.drop_zero]

lemma occursAt_append (s u k : List Char) (i : ℕ) (hi : i ≤ s.length)
    (h : occursAt s k i = true) : occursAt (s ++ u) k i = true := by
  unfold occursAt at h ⊢
  rw [drop_append_of_le s u i hi]
  exact startsWith_append _ _ _ h

lemma occursAt_bound {s k : List Char} {i : ℕ} (hi : i ≤ s.length)
    (h : occursAt s k i = true) : i + k.length ≤ s.length := by
  have h1 := startsWith_length_le h
  have h2 : (s.drop i).length = s.length - i := List.length_drop _ _
  omega

lemma atIsWord_eq_false {s : List Char} {i : ℕ} (h : s.length ≤ i) :
    atIsWord s i = false := by
  unfold atIsWord
  rw [List.drop_eq_nil_of_le h]

lemma atIsWord_append_lt (s u : List Char) (i : ℕ) (h : i < s.length) :
    atIsWord (s ++ u) i = atIsWord s i := by
  unfold atIsWord
  rw [drop_append_of_le s u i (by omega)]
  cases hds : s.drop i with
  | nil =>
    have := List.length_drop i s
    rw [hds] at this
    simp at this
    omega
  | cons c t => rfl

lemma atIsWord_append_end (s v : List Char) (c : Char) :
    atIsWord (s ++ c :: v) s.length = isWordChar c := by
  unfold atIsWord
  rw [List.drop_left]

lemma bdAt_append (s v : List Char) (i : ℕ) (hi : i ≤ s.length) :
    bdAt (s ++ '\n' :: v) i = bdAt s i := by
  unfold bdAt
  have hleft : ((!(i == 0)) && atIsWord (s ++ '\n' :: v) (i - 1)) =
      ((!(i == 0)) && atIsWord s (i - 1)) := by
    by_cases h0 : i = 0
    · simp [h0]
    · rw [atIsWord_append_lt s ('\n' :: v) (i - 1) (by omega)]
  have hright : atIsWord (s ++ '\n' :: v) i = atIsWord s i := by
    by_cases hlt : i < s.length
    · exact atIsWord_append_lt s ('\n' :: v) i hlt
    · have hieq : i = s.length := by omega
      rw [hieq, atIsWord_append_end, atIsWord_eq_false (le_refl _)]
      rfl
  rw [hleft, hright]

lemma runAt_true_elim {s : List Char} {i k : ℕ} {p : Char → Bool} (hi : i ≤ s.length)
    (h : runAt s i k p = true) :
    i + k ≤ s.length ∧ ((s.drop i).take k).all p = true := by
  unfold runAt at h
  rcases band_elim h with ⟨hall, hlen⟩
  have hlen' : ((s.drop i).take k).length = k := of_decide_eq_true hlen
  have h1 : ((s.drop i).take k).length = min k (s.drop i).length := List.length_take _ _
  have h2 : (s.drop i).length = s.length - i := List.length_drop _ _
  exact ⟨by omega, hall⟩

lemma runAt_append (s u : List Char) (i k : ℕ) (p : Char → Bool) (hi : i ≤ s.length)
    (h : runAt s i k p = true) : runAt (s ++ u) i k p = true := by
  have hb := (runAt_true_elim hi h).1
  unfold runAt at h ⊢
  rw [drop_append_of_le s u i hi,
    List.take_append_of_le_length (by
      have h2 : (s.drop i).length = s.length - i := List.length_drop _ _
      omega)]
  exact h

lemma seqOk_append_mono (items : List PItem) (hE : noEos items = true) (s v : List Char) :
    ∀ i, i ≤ s.length → seqOk items s i = true →
      seqOk items (s ++ '\n' :: v) i = true := by
  induction items with
  | nil => intro i _ _; rfl
  | cons it rest ih =>
    intro i hi h
    cases it with
    | lit w =>
      have hE' : noEos rest = true := hE
      rcases band_elim h with ⟨h1, h2⟩
      have hb := occursAt_bound hi h1
      exact band_intro2
        ⟨occursAt_append s ('\n' :: v) w i hi h1, ih hE' _ (by omega) h2⟩
    | cls p mn mx =>
      have hE' : noEos rest = true := hE
      rcases List.any_eq_true.mp h with ⟨k, hk, hcond⟩
      rcases band_elim hcond with ⟨hc1, hrest⟩
      rcases band_elim hc1 with ⟨hc2, hrun⟩
      have hbound := (runAt_true_elim hi hrun).1
      apply List.any_eq_true.mpr
      refine ⟨k, ?_, ?_⟩
      · rw [List.mem_range] at hk ⊢
        rw [List.length_append]
        omega
      · exact band_intro2
          ⟨band_intro2 ⟨hc2, runAt_append s ('\n' :: v) i k p hi hrun⟩,
           ih hE' _ (by omega) hrest⟩
    | bd =>
      have hE' : noEos rest = true := hE
      rcases band_elim h with ⟨h1, h2⟩
      exact band_intro2
        ⟨by rw [bdAt_append s v i hi]; exact h1, ih hE' i hi h2⟩
    | eos => simp [noEos] at hE

lemma searchP_append_mono (items : List PItem) (hE : noEos items = true)
    (s v : List Char) (h : searchP items s = true) :
    searchP items (s ++ '\n' :: v) = true := by
  rcases List.any_eq_true.mp h with ⟨i, hi, hok⟩
  rw [List.mem_range] at hi
  apply List.any_eq_true.mpr
  refine ⟨i, List.mem_range.mpr (by rw [List.length_append]; omega), ?_⟩
  exact seqOk_append_mono items hE s v i (by omega) hok

lemma startsWith_boundary {k u : List Char} :
    ∀ {l : List Char}, startsWith k (l ++ u) = true → startsWith k l = false →
      l.length < k.length := by
  induction k with
  | nil =>
    intro l _ h2
    simp [startsWith] at h2
  | cons a k ih =>
    intro l h1 h2
    cases l with
    | nil => simp
    | cons b l' =>
      by_cases hab : a = b
      · subst hab
        simp only [startsWith, List.cons_append, Bool.and_eq_true, decide_eq_true_eq] at h1
        have h1' : startsWith k (l' ++ u) = true := h1.2
        have h2' : startsWith k l' = false := by
          cases hsw : startsWith k l' with
          | false => rfl
          | true =>
            exfalso
            apply absurd h2
            simp [startsWith, hsw]
        simpa [List.length_cons] using ih h1' h2'
      · exfalso
        simp only [startsWith, List.cons_append, Bool.and_eq_true, decide_eq_true_eq] at h1
        exact hab h1.1

lemma countAux_zero_of_short (k : List Char) :
    ∀ (s : List Char) (n : ℕ), s.length < k.length → countAux k s n = 0 := by
  intro s
  induction s with
  | nil => intro n _; rfl
  | cons c s ih =>
    intro n hlen
    cases n with
    | succ m =>
      show countAux k s m = 0
      exact ih m (by simp only [List.length_cons] at hlen; omega)
    | zero =>
      have hsw : startsWith k (c :: s) = false := by
        cases hh : startsWith k (c :: s) with
        | false => rfl
        | true =>
          have := startsWith_length_le hh
          simp only [List.length_cons] at hlen this
          omega
      show (if startsWith k (c :: s) = true then 1 + countAux k s (k.length - 1)
            else countAux k s 0) = 0
      rw [hsw]
      simp only [Bool.false_eq_true, if_false]
      exact ih 0 (by simp only [List.length_cons] at hlen; omega)

lemma countAux_append_le (k : List Char) :
    ∀ (s : List Char) (n : ℕ) (u : List Char), countAux k s n ≤ countAux k (s ++ u) n := by
  intro s
  induction s with
  | nil => intro n u; exact Nat.zero_le _
  | cons c s ih =>
    intro n u
    cases n with
    | succ m =>
      show countAux k s m ≤ countAux k (s ++ u) m
      exact ih m u
    | zero =>
      show (if startsWith k (c :: s) = true then 1 + countAux k s (k.length - 1)
            else countAux k s 0) ≤
           (if startsWith k (c :: (s ++ u)) = true then 1 + countAux k (s ++ u) (k.length - 1)
            else countAux k (s ++ u) 0)
      by_cases hsw : startsWith k (c :: s) = true
      · have hsw2 : startsWith k (c :: (s ++ u)) = true := by
          have := startsWith_append k (c :: s) u hsw
          simpa using this
        rw [if_pos hsw, if_pos hsw2]
        exact Nat.add_le_add_left (ih (k.length - 1) u) 1
      · have hsw' : startsWith k (c :: s) = false := by
          cases hh : startsWith k (c :: s) with
          | false => rfl
          | true => exact absurd hh hsw
        by_cases hsw2 : startsWith k (c :: (s ++ u)) = true
        · have hshort : (c :: s).length < k.length := by
            apply startsWith_boundary (u := u)
            · simpa using hsw2
            · exact hsw'
          have h0 : countAux k s 0 = 0 :=
            countAux_zero_of_short k s 0 (by simp only [List.length_cons] at hshort; omega)
          rw [if_neg hsw, if_pos hsw2, h0]
          omega
        · rw [if_neg hsw, if_neg hsw2]
          exact ih 0 u

lemma pyCount_append_le (s u k : List Char) : pyCount s k ≤ pyCount (s ++ u) k :=
  countAux_append_le k s 0 u

lemma pyLStrip_eq_nil_iff (l : List Char) :
    pyLStrip l = [] ↔ ∀ c ∈ l, isPySpace c = true := by
  induction l with
  | nil => simp [pyLStrip]
  | cons c l ih =>
    by_cases hc : isPySpace c = true
    · simp only [pyLStrip, if_pos hc, ih, List.mem_cons]
      constructor
      · rintro h c' (rfl | hc')
        · exact hc
        · exact h c' hc'
      · intro h c' hc'
        exact h c' (Or.inr hc')
    · simp only [pyLStrip, if_neg hc]
      constructor
      · intro h
        exact absurd h (List.cons_ne_nil c l)
      · intro h
        exact absurd (h c (by simp)) hc

lemma pyLStrip_head_not_space :
    ∀ {l c t}, pyLStrip l = c :: t → isPySpace c = false := by
  intro l
  induction l with
  | nil => intro c t h; exact absurd h (by simp [pyLStrip])
  | cons d l ih =>
    intro c t h
    by_cases hd : isPySpace d = true
    · rw [pyLStrip, if_pos hd] at h
      exact ih h
    · rw [pyLStrip, if_neg hd] at h
      cases h
      cases hdd : isPySpace d with
      | false => rfl
      | true => exact absurd hdd hd

lemma pyStrip_eq_nil_iff (l : List Char) :
    pyStrip l = [] ↔ ∀ c ∈ l, isPySpace c = true := by
  unfold pyStrip pyRStrip
  rw [List.reverse_eq_nil_iff, pyLStrip_eq_nil_iff]
  constructor
  · intro h
    rw [← pyLStrip_eq_nil_iff]
    cases hl : pyLStrip l with
    | nil => rfl
    | cons c t =>
      exfalso
      have hcs := pyLStrip_head_not_space hl
      have : isPySpace c = true := h c (by rw [hl]; simp)
      rw [this] at hcs
      exact Bool.noConfusion hcs
  · intro h c hc
    rw [(pyLStrip_eq_nil_iff l).mpr h] at hc
    simp at hc

lemma pyStrip_ne_nil_append (x y : List Char) (h : pyStrip x ≠ []) :
    pyStrip (x ++ y) ≠ [] := by
  rw [Ne, pyStrip_eq_nil_iff] at h ⊢
  intro hall
  exact h (fun c hc => hall c (List.mem_append_left y hc))

lemma kwfold_mono (t u : List Char) :
    ∀ (L : List (List Char × ℤ)), (∀ kv ∈ L, 0 ≤ kv.2) →
      ∀ acc acc' : ℤ, acc ≤ acc' →
      L.foldl (fun acc kw => acc + min ((pyCount t kw.1 : ℤ) * kw.2) 50) acc ≤
        L.foldl (fun acc kw => acc + min ((pyCount (t ++ u) kw.1 : ℤ) * kw.2) 50) acc' := by
  intro L
  induction L with
  | nil => intro _ acc acc' h; exact h
  | cons kv L ihL =>
    intro hw acc acc' h
    apply ihL (fun kv' h' => hw kv' (by simp [h']))
    show acc + min ((pyCount t kv.1 : ℤ) * kv.2) 50 ≤
      acc' + min ((pyCount (t ++ u) kv.1 : ℤ) * kv.2) 50
    have hc : (pyCount t kv.1 : ℤ) ≤ (pyCount (t ++ u) kv.1 : ℤ) := by
      exact_mod_cast pyCount_append_le t u kv.1
    have hww : 0 ≤ kv.2 := hw kv (by simp)
    have hmin : min ((pyCount t kv.1 : ℤ) * kv.2) 50 ≤
        min ((pyCount (t ++ u) kv.1 : ℤ) * kv.2) 50 :=
      min_le_min (mul_le_mul_of_nonneg_right hc hww) (le_refl _)
    omega

lemma kwfold_nonneg (t : List Char) :
    ∀ (L : List (List Char × ℤ)), (∀ kv ∈ L, 0 ≤ kv.2) →
      ∀ acc : ℤ, 0 ≤ acc →
      0 ≤ L.foldl (fun acc kw => acc + min ((pyCount t kw.1 : ℤ) * kw.2) 50) acc := by
  intro L
  induction L with
  | nil => intro _ acc h; exact h
  | cons kv L ihL =>
    intro hw acc h
    apply ihL (fun kv' h' => hw kv' (by simp [h']))
    show (0 : ℤ) ≤ acc + min ((pyCount t kv.1 : ℤ) * kv.2) 50
    have h1 : (0 : ℤ) ≤ min ((pyCount t kv.1 : ℤ) * kv.2) 50 :=
      le_min (mul_nonneg (by positivity) (hw kv (by simp))) (by norm_num)
    omega

lemma keywordWeights_nonneg : ∀ kv ∈ keywordWeights, (0 : ℤ) ≤ kv.2 := by decide

lemma keyword_density_append_mono (s u : List Char) :
    calculate_keyword_density_score s ≤ calculate_keyword_density_score (s ++ u) := by
  have hmap : pyLower (s ++ u) = pyLower s ++ pyLower u := List.map_append _ _ _
  simp only [calculate_keyword_density_score]
  rw [hmap]
  by_cases hs : (pyStrip (pyLower s)).isEmpty
  · rw [if_pos hs]
    split
    · exact le_refl 0
    · exact kwfold_nonneg _ _ keywordWeights_nonneg 0 (le_refl 0)
  · rw [if_neg hs]
    have hs' : ¬(pyStrip (pyLower s ++ pyLower u)).isEmpty := by
      rw [List.isEmpty_iff] at hs ⊢
      exact pyStrip_ne_nil_append _ _ hs
    rw [if_neg hs']
    exact kwfold_mono _ _ _ keywordWeights_nonneg 0 0 (le_refl 0)

/-! ### Line structure of stripped text under token append -/

lemma splitNl_ne_nil : ∀ l : List Char, splitNl l ≠ [] := by
  intro l
  induction l with
  | nil => simp [splitNl]
  | cons c s ih =>
    by_cases hc : c = '\n'
    · simp [splitNl, hc]
    · simp only [splitNl, if_neg hc]
      cases hs : splitNl s with
      | nil => simp
      | cons l ls => simp

lemma splitNl_append_sep (a b : List Char) :
    splitNl (a ++ '\n' :: b) = splitNl a ++ splitNl b := by
  induction a with
  | nil =>
    show splitNl ('\n' :: b) = [[]] ++ splitNl b
    simp [splitNl]
  | cons c a ih =>
    by_cases hc : c = '\n'
    · subst hc
      show splitNl ('\n' :: (a ++ '\n' :: b)) = splitNl ('\n' :: a) ++ splitNl b
      simp only [splitNl, if_pos rfl]
      rw [ih]
      rfl
    · show splitNl (c :: (a ++ '\n' :: b)) = splitNl (c :: a) ++ splitNl b
      simp only [splitNl, if_neg hc]
      rw [ih]
      cases ha : splitNl a with
      | nil => exact absurd ha (splitNl_ne_nil a)
      | cons l ls => rfl

lemma splitNl_no_nl (tok : List Char) (h : ∀ c ∈ tok, ¬c = '\n') :
    splitNl tok = [tok] := by
  induction tok with
  | nil => rfl
  | cons c t ih =>
    simp only [splitNl, if_neg (h c (by simp))]
    rw [ih (fun c' hc' => h c' (by simp [hc']))]

/-- Append a character to the last line of a non-empty line list. -/
def appendLast (c : Char) : List (List Char) → List (List Char)
  | [] => [[c]]
  | [l] => [l ++ [c]]
  | l :: ls => l :: appendLast c ls

lemma splitNl_append_single (x : List Char) (c : Char) (hc : ¬c = '\n') :
    splitNl (x ++ [c]) = appendLast c (splitNl x) := by
  induction x with
  | nil =>
    show splitNl [c] = appendLast c [[]]
    simp [splitNl, if_neg hc, appendLast]
  | cons d x ih =>
    by_cases hd : d = '\n'
    · subst hd
      show splitNl ('\n' :: (x ++ [c])) = appendLast c ([] :: splitNl x)
      simp only [splitNl, if_pos rfl]
      rw [ih]
      cases hx : splitNl x with
      | nil => exact absurd hx (splitNl_ne_nil x)
      | cons l ls => rfl
    · show splitNl (d :: (x ++ [c])) = appendLast c (splitNl (d :: x))
      simp only [splitNl, if_neg hd]
      rw [ih]
      cases hx : splitNl x with
      | nil => exact absurd hx (splitNl_ne_nil x)
      | cons l ls =>
        cases ls with
        | nil => rfl
        | cons l2 ls2 => rfl

lemma pyLStrip_append_of_nil (a b : List Char) (h : pyLStrip a = []) :
    pyLStrip (a ++ b) = pyLStrip b := by
  induction a with
  | nil => rfl
  | cons c a ih =>
    by_cases hc : isPySpace c = true
    · rw [pyLStrip, if_pos hc] at h
      show pyLStrip (c :: (a ++ b)) = pyLStrip b
      rw [pyLStrip, if_pos hc]
      exact ih h
    · rw [pyLStrip, if_neg hc] at h
      exact absurd h (List.cons_ne_nil c a)

lemma pyLStrip_append_of_ne_nil (a b : List Char) (h : pyLStrip a ≠ []) :
    pyLStrip (a ++ b) = pyLStrip a ++ b := by
  induction a with
  | nil => exact absurd rfl h
  | cons c a ih =>
    by_cases hc : isPySpace c = true
    · rw [pyLStrip, if_pos hc] at h
      show pyLStrip (c :: (a ++ b)) = pyLStrip (c :: a) ++ b
      rw [pyLStrip, if_pos hc, pyLStrip, if_pos hc]
      exact ih h
    · show pyLStrip (c :: (a ++ b)) = pyLStrip (c :: a) ++ b
      rw [pyLStrip, if_neg hc, pyLStrip, if_neg hc]
      rfl

lemma pyRStrip_append_space (l : List Char) (c : Char) (hc : isPySpace c = true) :
    pyRStrip (l ++ [c]) = pyRStrip l := by
  unfold pyRStrip
  rw [show (l ++ [c]).reverse = c :: l.reverse from by
    rw [List.reverse_append]; rfl]
  rw [pyLStrip, if_pos hc]

lemma pyStrip_append_space (l : List Char) (c : Char) (hc : isPySpace c = true) :
    pyStrip (l ++ [c]) = pyStrip l := by
  unfold pyStrip
  by_cases h : pyLStrip l = []
  · rw [pyLStrip_append_of_nil l [c] h, h]
    rw [pyLStrip, if_pos hc]
    rfl
  · rw [pyLStrip_append_of_ne_nil l [c] h, pyRStrip_append_space _ _ hc]

lemma map_pyStrip_appendLast (c : Char) (hc : isPySpace c = true) :
    ∀ L : List (List Char), L ≠ [] →
      (appendLast c L).map pyStrip = L.map pyStrip := by
  intro L
  induction L with
  | nil => intro h; exact absurd rfl h
  | cons l ls ih =>
    intro _
    cases ls with
    | nil =>
      show [pyStrip (l ++ [c])] = [pyStrip l]
      rw [pyStrip_append_space l c hc]
    | cons l2 ls2 =>
      show pyStrip l :: (appendLast c (l2 :: ls2)).map pyStrip =
        pyStrip l :: (l2 :: ls2).map pyStrip
      rw [ih (by simp)]

lemma pyLStrip_decomp (l : List Char) :
    ∃ w, l = w ++ pyLStrip l ∧ ∀ c ∈ w, isPySpace c = true := by
  induction l with
  | nil => exact ⟨[], rfl, by simp⟩
  | cons c l ih =>
    by_cases hc : isPySpace c = true
    · rcases ih with ⟨w, hw, hws⟩
      refine ⟨c :: w, ?_, ?_⟩
      · rw [pyLStrip, if_pos hc]
        exact congrArg (c :: ·) hw
      · intro c' hc'
        rcases List.mem_cons.mp hc' with rfl | hc'
        · exact hc
        · exact hws c' hc'
    · refine ⟨[], ?_, by simp⟩
      rw [pyLStrip, if_neg hc]
      rfl

lemma pyRStrip_decomp (l : List Char) :
    ∃ w, l = pyRStrip l ++ w ∧ ∀ c ∈ w, isPySpace c = true := by
  rcases pyLStrip_decomp l.reverse with ⟨w, hw, hws⟩
  refine ⟨w.reverse, ?_, ?_⟩
  · have h1 : l = (w ++ pyLStrip l.reverse).reverse := by
      rw [← hw, List.reverse_reverse]
    rw [List.reverse_append] at h1
    exact h1
  · intro c hc
    exact hws c (List.mem_reverse.mp hc)

lemma pyRStrip_of_last_not_space (x : List Char) (c : Char) (r : List Char)
    (hrev : x.reverse = c :: r) (hc : isPySpace c = false) : pyRStrip x = x := by
  unfold pyRStrip
  rw [hrev, pyLStrip, if_neg (by rw [hc]; exact Bool.false_ne_true), ← hrev,
    List.reverse_reverse]

lemma bor_elim {a b : Bool} (h : (a || b) = true) : a = true ∨ b = true := by
  simp only [Bool.or_eq_true] at h
  exact h

lemma mapstrip_splitNl_append_ws (z : List Char) :
    ∀ w : List Char, (∀ c ∈ w, isPySpace c = true) →
      ∃ k, (splitNl (z ++ w)).map pyStrip =
        (splitNl z).map pyStrip ++ List.replicate k [] := by
  intro w
  induction w using List.reverseRecOn with
  | nil => intro _; exact ⟨0, by simp⟩
  | append_singleton w c ih =>
    intro hws
    have hw : ∀ c' ∈ w, isPySpace c' = true := fun c' hc' => hws c' (by simp [hc'])
    have hc : isPySpace c = true := hws c (by simp)
    rcases ih hw with ⟨k, hk⟩
    by_cases hnl : c = '\n'
    · subst hnl
      refine ⟨k + 1, ?_⟩
      have h1 : splitNl (z ++ (w ++ ['\n'])) = splitNl (z ++ w) ++ [[]] := by
        rw [show z ++ (w ++ ['\n']) = (z ++ w) ++ '\n' :: [] from by simp,
          splitNl_append_sep]
        rfl
      rw [h1, List.map_append, hk, List.append_assoc]
      refine congrArg _ ?_
      show List.replicate k [] ++ [pyStrip []] = List.replicate (k + 1) []
      rw [show pyStrip ([] : List Char) = [] from rfl, List.replicate_succ' k ([] : List Char)]
    · refine ⟨k, ?_⟩
      have h1 : splitNl (z ++ (w ++ [c])) = appendLast c (splitNl (z ++ w)) := by
        rw [← List.append_assoc]
        exact splitNl_append_single (z ++ w) c hnl
      rw [h1, map_pyStrip_appendLast c hc _ (splitNl_ne_nil _), hk]

lemma findSome?_comp_map {α β γ : Type} (f : α → β) (g : β → Option γ) (L : List α) :
    (L.map f).findSome? g = L.findSome? (fun a => g (f a)) := by
  induction L with
  | nil => rfl
  | cons x L ih =>
    show List.findSome? g (f x :: L.map f) = _
    rw [List.findSome?]
    cases h : g (f x) with
    | some b =>
      show _ = List.findSome? (fun a => g (f a)) (x :: L)
      rw [List.findSome?, h]
    | none =>
      show List.findSome? g (L.map f) = List.findSome? (fun a => g (f a)) (x :: L)
      rw [List.findSome?, h, ih]

lemma findSome?_eq_none_of_all {α β : Type} (g : α → Option β) (B : List α)
    (hB : ∀ b ∈ B, g b = none) : B.findSome? g = none := by
  induction B with
  | nil => rfl
  | cons x B ih =>
    rw [List.findSome?, hB x (by simp)]
    exact ih (fun b hb => hB b (by simp [hb]))

lemma findSome?_append_left {α β : Type} (g : α → Option β) (A B : List α)
    (hB : ∀ b ∈ B, g b = none) : (A ++ B).findSome? g = A.findSome? g := by
  induction A with
  | nil => exact findSome?_eq_none_of_all g B hB
  | cons x A ih =>
    show List.findSome? g (x :: (A ++ B)) = List.findSome? g (x :: A)
    rw [List.findSome?, List.findSome?, ih]

lemma findSome?_take_append (g : List Char → Option (List Char))
    (A B : List (List Char)) (hB : ∀ b ∈ B, g b = none) :
    ((A ++ B).take 10).findSome? g = (A.take 10).findSome? g := by
  by_cases hA : 10 ≤ A.length
  · rw [List.take_append_of_le_length hA]
  · rw [List.take_append_eq_append_take,
      List.take_of_length_le (by omega : A.length ≤ 10)]
    rw [findSome?_append_left g A _ (fun b hb => hB b (List.take_subset _ _ hb))]

lemma seqOk_cls_exists :
    ∀ (items : List PItem) (s : List Char) (p : Char → Bool) (mn : ℕ) (mx : Option ℕ),
      (PItem.cls p mn mx) ∈ items → 1 ≤ mn →
      ∀ i, seqOk items s i = true → ∃ c ∈ s, p c = true := by
  intro items
  induction items with
  | nil =>
    intro s p mn mx hmem
    simp at hmem
  | cons it rest ih =>
    intro s p mn mx hmem hmn i h
    cases it with
    | lit w =>
      rcases band_elim h with ⟨_, h2⟩
      rcases List.mem_cons.mp hmem with heq | hmem'
      · exact PItem.noConfusion heq
      · exact ih s p mn mx hmem' hmn _ h2
    | cls p' mn' mx' =>
      rcases List.any_eq_true.mp h with ⟨k, hk, hcond⟩
      rcases band_elim hcond with ⟨hc1, hrest⟩
      rcases band_elim hc1 with ⟨hc2, hrun⟩
      rcases band_elim hc2 with ⟨hmnk, hmxk⟩
      rcases List.mem_cons.mp hmem with heq | hmem'
      · injection heq with hp hmn' hmx'
        subst hp
        subst hmn'
        have hk1 : 1 ≤ k := le_trans hmn (of_decide_eq_true hmnk)
        rcases band_elim hrun with ⟨hall, hlen⟩
        have hlen' : ((s.drop i).take k).length = k := of_decide_eq_true hlen
        cases hlist : (s.drop i).take k with
        | nil =>
          rw [hlist] at hlen'
          simp at hlen'
          omega
        | cons c t =>
          have hc : p c = true := List.all_eq_true.mp hall c (by rw [hlist]; simp)
          have hcs : c ∈ s := by
            have h1 : c ∈ (s.drop i).take k := by rw [hlist]; simp
            exact List.drop_subset i s (List.take_subset _ _ h1)
          exact ⟨c, hcs, hc⟩
      · exact ih s p mn mx hmem' hmn _ hrest
    | bd =>
      rcases band_elim h with ⟨_, h2⟩
      rcases List.mem_cons.mp hmem with heq | hmem'
      · exact PItem.noConfusion heq
      · exact ih s p mn mx hmem' hmn _ h2
    | eos =>
      rcases band_elim h with ⟨_, h2⟩
      rcases List.mem_cons.mp hmem with heq | hmem'
      · exact PItem.noConfusion heq
      · exact ih s p mn mx hmem' hmn _ h2

/-- The ten ASCII digits. -/
def digitChars : List Char := ['0', '1', '2', '3', '4', '5', '6', '7', '8', '9']

lemma digit_char_facts (c : Char) (h : c ∈ digitChars) :
    Char.toLower c = c ∧ isPySpace c = false ∧ Char.isUpper c = false ∧ ¬c = '\n' := by
  fin_cases h <;> exact ⟨by decide, by decide, by decide, by decide⟩

lemma digit_line_no_title (l : List Char) (hd : ∀ c ∈ l, c ∈ digitChars) :
    titleLineMatch l = none := by
  have h1 : titlePatternAppendix l = false := by
    cases hh : titlePatternAppendix l with
    | false => rfl
    | true =>
      exfalso
      rcases seqOk_cls_exists _ (pyLower l) isPySpace 1 none
        (List.mem_cons.mpr (Or.inr (List.mem_cons.mpr (Or.inl rfl)))) (le_refl 1) 0 hh with
        ⟨c, hc, hp⟩
      rcases List.mem_map.mp hc with ⟨c', hc', rfl⟩
      have hf := digit_char_facts c' (hd c' hc')
      rw [hf.1, hf.2.1] at hp
      exact Bool.noConfusion hp
  have h2 : titlePatternAllCaps l = false := by
    cases hh : titlePatternAllCaps l with
    | false => rfl
    | true =>
      exfalso
      have hcontr : ∀ c ∈ l, Char.isUpper c = true → False := by
        intro c hc hu
        have hf := digit_char_facts c (hd c hc)
        rw [hf.2.2.1] at hu
        exact Bool.noConfusion hu
      rcases bor_elim hh with hm | hm
      · rcases seqOk_cls_exists _ l Char.isUpper 1 (some 1)
          (List.mem_append.mpr (Or.inr (List.mem_cons.mpr (Or.inl rfl)))) (le_refl 1) 0 hm with
          ⟨c, hc, hp⟩
        exact hcontr c hc hp
      · rcases seqOk_cls_exists _ l Char.isUpper 1 (some 1)
          (List.mem_cons.mpr (Or.inl rfl)) (le_refl 1) 0 hm with ⟨c, hc, hp⟩
        exact hcontr c hc hp
  have h3 : titlePatternChapter l = false := by
    cases hh : titlePatternChapter l with
    | false => rfl
    | true =>
      exfalso
      rcases List.any_eq_true.mp hh with ⟨w, _, hmatch⟩
      rcases seqOk_cls_exists _ (pyLower l) isPySpace 1 none
        (List.mem_cons.mpr (Or.inr (List.mem_cons.mpr (Or.inl rfl)))) (le_refl 1) 0 hmatch with
        ⟨c, hc, hp⟩
      rcases List.mem_map.mp hc with ⟨c', hc', rfl⟩
      have hf := digit_char_facts c' (hd c' hc')
      rw [hf.1, hf.2.1] at hp
      exact Bool.noConfusion hp
  unfold titleLineMatch
  rw [h1, h2, h3]
  rfl

lemma pyStrip_digits (tok : List Char) (hne : tok ≠ [])
    (hd : ∀ c ∈ tok, c ∈ digitChars) : pyStrip tok = tok := by
  rcases List.exists_cons_of_ne_nil hne with ⟨c, t, rfl⟩
  have hc := (digit_char_facts c (hd c (by simp))).2.1
  unfold pyStrip
  rw [pyLStrip, if_neg (by rw [hc]; exact Bool.false_ne_true)]
  cases hrev : (c :: t).reverse with
  | nil =>
    exfalso
    have := congrArg List.length hrev
    simp at this
  | cons d r =>
    have hdmem : d ∈ c :: t := List.mem_reverse.mp (by rw [hrev]; simp)
    exact pyRStrip_of_last_not_space _ d r hrev (digit_char_facts d (hd d hdmem)).2.1

lemma pyLStrip_digits (tok : List Char) (hne : tok ≠ [])
    (hd : ∀ c ∈ tok, c ∈ digitChars) : pyLStrip tok = tok := by
  rcases List.exists_cons_of_ne_nil hne with ⟨c, t, rfl⟩
  rw [pyLStrip,
    if_neg (by rw [(digit_char_facts c (hd c (by simp))).2.1]; exact Bool.false_ne_true)]

lemma pyRStrip_digits (tok : List Char) (hne : tok ≠ [])
    (hd : ∀ c ∈ tok, c ∈ digitChars) : pyRStrip tok = tok := by
  cases hrev : tok.reverse with
  | nil => exact absurd (List.reverse_eq_nil_iff.mp hrev) hne
  | cons d r =>
    exact pyRStrip_of_last_not_space tok d r hrev
      (digit_char_facts d (hd d (List.mem_reverse.mp (by rw [hrev]; simp)))).2.1

lemma pyRStrip_append_token (x tok : List Char) (hne : tok ≠ [])
    (hd : ∀ c ∈ tok, c ∈ digitChars) :
    pyRStrip (x ++ '\n' :: tok) = x ++ '\n' :: tok := by
  cases hrev : tok.reverse with
  | nil => exact absurd (List.reverse_eq_nil_iff.mp hrev) hne
  | cons d r =>
    have hds := (digit_char_facts d (hd d (List.mem_reverse.mp (by rw [hrev]; simp)))).2.1
    refine pyRStrip_of_last_not_space _ d (r ++ '\n' :: x.reverse) ?_ hds
    rw [List.reverse_append, List.reverse_cons, hrev]
    simp

/-- Appending a newline and a digits-only token to a page text leaves the
extracted section title unchanged: the new material only adds trailing
lines that match none of the title patterns, and the first ten stripped
lines are otherwise unaffected. -/
lemma extract_section_title_append_token (s tok : List Char) (hne : tok ≠ [])
    (hd : ∀ c ∈ tok, c ∈ digitChars) :
    extract_section_title (s ++ '\n' :: tok) = extract_section_title s := by
  have hnonl : ∀ c ∈ tok, ¬c = '\n' := fun c hc => (digit_char_facts c (hd c hc)).2.2.2
  have htokstrip : pyStrip tok = tok := pyStrip_digits tok hne hd
  cases hls : pyLStrip s with
  | nil =>
    have hstrips : pyStrip s = [] := by
      show pyRStrip (pyLStrip s) = []
      rw [hls]
      rfl
    have hlsnew : pyLStrip (s ++ '\n' :: tok) = tok := by
      rw [pyLStrip_append_of_nil s _ hls, pyLStrip, if_pos (by decide)]
      exact pyLStrip_digits tok hne hd
    have hstripnew : pyStrip (s ++ '\n' :: tok) = tok := by
      show pyRStrip (pyLStrip (s ++ '\n' :: tok)) = tok
      rw [hlsnew]
      exact pyRStrip_digits tok hne hd
    unfold extract_section_title
    rw [hstrips, hstripnew, splitNl_no_nl tok hnonl]
    have e1 : List.findSome? (fun l0 => titleLineMatch (pyStrip l0)) [tok] = none := by
      simp [List.findSome?, htokstrip, digit_line_no_title tok hd]
    have e2 : List.findSome? (fun l0 => titleLineMatch (pyStrip l0)) [[]] = none := by
      have hps : pyStrip ([] : List Char) = [] := rfl
      simp [List.findSome?, hps, digit_line_no_title [] (by simp)]
    show List.findSome? (fun l0 => titleLineMatch (pyStrip l0)) [tok] =
      List.findSome? (fun l0 => titleLineMatch (pyStrip l0)) [[]]
    rw [e1, e2]
  | cons c0 y' =>
    have hynil : pyLStrip s ≠ [] := by rw [hls]; simp
    have hlsnew : pyLStrip (s ++ '\n' :: tok) = pyLStrip s ++ '\n' :: tok :=
      pyLStrip_append_of_ne_nil s _ hynil
    have hstripnew : pyStrip (s ++ '\n' :: tok) = pyLStrip s ++ '\n' :: tok := by
      show pyRStrip (pyLStrip (s ++ '\n' :: tok)) = pyLStrip s ++ '\n' :: tok
      rw [hlsnew]
      exact pyRStrip_append_token _ tok hne hd
    rcases pyRStrip_decomp (pyLStrip s) with ⟨w, hw, hws⟩
    obtain ⟨z, hz⟩ : ∃ z, pyRStrip (pyLStrip s) = z := ⟨_, rfl⟩
    rw [hz] at hw
    have hstrip_s : pyStrip s = z := hz
    rcases mapstrip_splitNl_append_ws z w hws with ⟨k, hk⟩
    have hconv : ∀ L : List (List Char),
        (L.take 10).findSome? (fun l0 => titleLineMatch (pyStrip l0)) =
          ((L.map pyStrip).take 10).findSome? titleLineMatch := by
      intro L
      rw [← List.map_take, findSome?_comp_map]
    unfold extract_section_title
    rw [hstripnew, hstrip_s, hw, splitNl_append_sep, splitNl_no_nl tok hnonl,
      hconv, hconv, List.map_append, hk]
    simp only [List.map_cons, List.map_nil]
    rw [List.append_assoc]
    apply findSome?_take_append
    intro b hb
    rcases List.mem_append.mp hb with hb | hb
    · rw [List.eq_of_mem_replicate hb]
      exact digit_line_no_title [] (by simp)
    · rw [List.mem_singleton.mp hb, htokstrip]
      exact digit_line_no_title tok hd

lemma containsSub_append_mono (s u k : List Char) (h : containsSub s k = true) :
    containsSub (s ++ u) k = true := by
  rcases List.any_eq_true.mp h with ⟨i, hi, hocc⟩
  rw [List.mem_range] at hi
  apply List.any_eq_true.mpr
  refine ⟨i, List.mem_range.mpr (by rw [List.length_append]; omega), ?_⟩
  exact occursAt_append s u k i (by omega) hocc

lemma strongPatterns_noEos : strongPatterns.all noEos = true := by rfl

lemma pyLower_append_tok (s tok : List Char) :
    pyLower (s ++ '\n' :: tok) = pyLower s ++ '\n' :: pyLower tok := by
  show (s ++ '\n' :: tok).map Char.toLower =
    s.map Char.toLower ++ '\n' :: tok.map Char.toLower
  rw [List.map_append, List.map_cons, show Char.toLower '\n' = '\n' from by decide]

lemma indicators_append_token (s tok : List Char)
    (h : has_register_indicators s [] = true) :
    has_register_indicators (s ++ '\n' :: tok) [] = true := by
  simp only [has_register_indicators, List.any_nil, Bool.or_false] at h ⊢
  rcases List.any_eq_true.mp h with ⟨pat, hmem, hs⟩
  apply List.any_eq_true.mpr
  refine ⟨pat, hmem, ?_⟩
  have hE : noEos pat = true := List.all_eq_true.mp strongPatterns_noEos pat hmem
  rw [pyLower_append_tok]
  exact searchP_append_mono pat hE (pyLower s) (pyLower tok) hs

lemma ite_le_ite_of_imp (p q : Prop) [Decidable p] [Decidable q] (a : ℤ)
    (ha : 0 ≤ a) (h : p → q) : (if p then a else 0) ≤ (if q then a else 0) := by
  by_cases hp : p
  · rw [if_pos hp, if_pos (h hp)]
  · rw [if_neg hp]
    split
    · exact ha
    · exact le_refl 0

/-- On a page with no tables the relevance score is the explicit sum of
the indicator, keyword-density, (vacuous) table, title, hex, scaling and
offset contributions, all computed on the bare page text. -/
lemma analyzePage_no_tables_score (n : ℤ) (s : List Char) :
    (analyzePage (mkPageData n s [])).relevance_score =
      (if has_register_indicators s [] then (50:ℤ) else 0) +
        calculate_keyword_density_score s + 0 +
        (match extract_section_title s with
         | none => (0:ℤ)
         | some t =>
           (if ["modbus", "register", "appendix", "data point"].any
               (fun kw => containsSub (pyLower t) kw.toList) then (40:ℤ) else 0) +
           (if containsSub (pyLower t) "appendix".toList &&
               ["register", "address", "scaling"].any
                 (fun kw => containsSub (pyLower s) kw.toList) then (60:ℤ) else 0)) +
        (if searchP patHexAddr (pyLower s) then (20:ℤ) else 0) +
        (if searchP patScalingPerBit (pyLower s) then (30:ℤ) else 0) +
        (if searchP patOffsetColon (pyLower s) then (20:ℤ) else 0) := rfl

/-- C4 (amended).  The claim as stated is refuted by
claim_C4_append_token_decreases_score: splicing an address token into the
last line of a page can destroy an all-caps section-title match and lower
the score.  Amended minimally: appending the strong indicator token *as a
line of its own* (a newline followed by a non-empty digits-only token,
covering 40xxx-style address tokens) to the text of a page without tables
never decreases that page's relevance score. -/
theorem claim_C4_amended_append_digit_token_line_monotone (n : ℤ) (s tok : List Char)
    (hne : tok ≠ []) (hd : ∀ c ∈ tok, c ∈ digitChars) :
    (analyzePage (mkPageData n s [])).relevance_score ≤
      (analyzePage (mkPageData n (s ++ '\n' :: tok) [])).relevance_score := by
  rw [analyzePage_no_tables_score, analyzePage_no_tables_score,
    extract_section_title_append_token s tok hne hd]
  refine add_le_add (add_le_add (add_le_add (add_le_add (add_le_add
    (add_le_add ?_ ?_) ?_) ?_) ?_) ?_) ?_
  · exact ite_le_ite_of_imp _ _ 50 (by norm_num) (indicators_append_token s tok)
  · exact keyword_density_append_mono s ('\n' :: tok)
  · exact le_refl 0
  · cases extract_section_title s with
    | none => exact le_refl 0
    | some t =>
      refine add_le_add (le_refl _) ?_
      refine ite_le_ite_of_imp _ _ 60 (by norm_num) (fun h => ?_)
      rcases band_elim h with ⟨h1, h2⟩
      refine band_intro2 ⟨h1, ?_⟩
      rcases List.any_eq_true.mp h2 with ⟨kw, hmem, hc⟩
      apply List.any_eq_true.mpr
      refine ⟨kw, hmem, ?_⟩
      rw [pyLower_append_tok]
      exact containsSub_append_mono _ _ _ hc
  · refine ite_le_ite_of_imp _ _ 20 (by norm_num) (fun h => ?_)
    rw [pyLower_append_tok]
    exact searchP_append_mono patHexAddr rfl (pyLower s) (pyLower tok) h
  · refine ite_le_ite_of_imp _ _ 30 (by norm_num) (fun h => ?_)
    rw [pyLower_append_tok]
    exact searchP_append_mono patScalingPerBit rfl (pyLower s) (pyLower tok) h
  · refine ite_le_ite_of_imp _ _ 20 (by norm_num) (fun h => ?_)
    rw [pyLower_append_tok]
    exact searchP_append_mono patOffsetColon rfl (pyLower s) (pyLower tok) h

/-- Witness for the amended C4 theorem at the concrete page text
"modbus" and the 40xxx-style token "40001". -/
theorem claim_C4_amended_append_digit_token_line_monotone_witness :
    "40001".toList ≠ [] ∧ (∀ c ∈ "40001".toList, c ∈ digitChars) ∧
      (analyzePage (mkPageData 1 "modbus".toList [])).relevance_score ≤
        DocumentChunk.relevance_score
          (analyzePage (mkPageData 1 ("modbus".toList ++ '\n' :: "40001".toList) [])) :=
  ⟨by decide, by decide,
    claim_C4_amended_append_digit_token_line_monotone 1 "modbus".toList "40001".toList
      (by decide) (by decide)⟩
